import Mathlib

/-!
Shallow embedding of the STIMP putting simulator (terrain.js and the
physics / geometry / prediction code of web/js/main.js), with proofs about
the behaviours the specification describes.

Modelling conventions:
* JavaScript numbers are modelled as exact rationals.
* `Math.sqrt` and `Math.exp` values that flow into further arithmetic are
  supplied through an explicit oracle structure (`MathO`); a comparison of
  a `Math.hypot`/`Math.sqrt` value against a nonnegative bound is written
  as the equivalent comparison of squares, which is exact under real
  semantics because both sides are nonnegative.
* Module-level mutable state (the terrain grids, the slope angle, stimp,
  the true-roll strength) is passed explicitly; `Math.sin(angleDeg*PI/180)`
  and the launch angle's sine/cosine are carried as precomputed inputs.
* Purely visual side effects (trail points, markers, quaternion spin,
  HUD colouring) are omitted; every other state mutation is kept.
-/

namespace STIMP

/-! ## terrain.js: constants (lines 4-9, 93) -/

def TR_GRID_SIZE : ℕ := 50

def TR_WORLD_SIZE : ℚ := 12

def TR_BASE_AMP : ℚ := 1/2

def TR_TARGET_AMP : ℚ := 1/10

def TR_SMOOTH_PASSES : ℕ := 8

def HEIGHT_SCALE : ℚ := 1/100

def TR_MIN_SPEED : ℚ := 4/5

/-! ## terrain.js: seeded rng (lines 12-25) -/

/-- 2^32, the modulus of JavaScript 32-bit integer coercion; 32-bit values
are represented by their unsigned representative in `[0, 2^32)`. -/
def U32 : ℕ := 4294967296

/-- Math.imul on unsigned 32-bit representatives: multiply and keep the
low 32 bits. -/
def imul (a b : ℕ) : ℕ := a * b % U32

/-- State update of mulberry32 (terrain.js line 15): `s = (s + 0x6D2B79F5) | 0`. -/
def mulberryNext (s : ℕ) : ℕ := (s + 0x6D2B79F5) % U32

/-- Output mixing of mulberry32 (terrain.js lines 16-18), producing the
final unsigned 32-bit value `(t ^ (t >>> 14)) >>> 0`. -/
def mulberryMix (s : ℕ) : ℕ :=
  let t1 := imul (s ^^^ (s >>> 15)) (1 ||| s)
  let t2 := ((t1 + imul (t1 ^^^ (t1 >>> 7)) (61 ||| t1)) % U32) ^^^ t1
  t2 ^^^ (t2 >>> 14)

/-- State of the mulberry32 closure after `n` calls.  The seed is first
coerced with `seed | 0` (terrain.js line 13); its unsigned representative
is the seed's low 32 bits. -/
def mulberryState (seed : ℤ) : ℕ → ℕ
  | 0 => (seed % (U32 : ℤ)).toNat
  | n + 1 => mulberryNext (mulberryState seed n)

/-- The n-th output (0-based) of the mulberry32 closure: each call first
advances the state, then mixes and divides by 4294967296 (line 18). -/
def mulberryFn (seed : ℤ) (n : ℕ) : ℚ :=
  (mulberryMix (mulberryState seed (n + 1)) : ℚ) / (U32 : ℚ)

/-- `rng.uniform(lo, hi) = lo + fn() * (hi - lo)` (terrain.js line 24),
with `u` the underlying generator output consumed by the call. -/
def uniform (u lo hi : ℚ) : ℚ := lo + u * (hi - lo)

/-! ## terrain.js: grids (lines 27-103) -/

/-- Reading `grid[y][x]`.  Out-of-range reads (which do not occur at the
indices the program uses) default to 0. -/
def get2 (g : List (List ℚ)) (y x : ℕ) : ℚ := (g.getD y []).getD x 0

/-- makeNoiseGrid (terrain.js lines 27-37).  The rng closure is modelled
by the stream `fn` of its successive outputs together with the index
`start` of the first output this call consumes; the row-major double loop
consumes outputs `start, start+1, ..., start+size*size-1`.  The second
component is the stream index after the call, mirroring the closure's
advanced state. -/
def makeNoiseGrid (size : ℕ) (amplitude : ℚ) (fn : ℕ → ℚ) (start : ℕ) :
    List (List ℚ) × ℕ :=
  ((List.range size).map fun y =>
    (List.range size).map fun x =>
      uniform (fn (start + (y * size + x))) (-amplitude) amplitude,
   start + size * size)

/-- The nine `(dy, dx)` offsets of the 3x3 neighbourhood, in the order the
double loop of smoothGrid visits them (terrain.js lines 48-49). -/
def nbOffsets : List (ℤ × ℤ) :=
  [(-1, -1), (-1, 0), (-1, 1), (0, -1), (0, 0), (0, 1), (1, -1), (1, 0), (1, 1)]

/-- One output cell of a smoothing pass: the average over the in-bounds
neighbours, whose count varies between 4, 6 and 9 (terrain.js lines 46-57). -/
def smoothCell (cur : List (List ℚ)) (size : ℕ) (y x : ℕ) : ℚ :=
  let inb := nbOffsets.filter fun d =>
    decide (0 ≤ (y : ℤ) + d.1 ∧ (y : ℤ) + d.1 < (size : ℤ) ∧
            0 ≤ (x : ℤ) + d.2 ∧ (x : ℤ) + d.2 < (size : ℤ))
  (inb.map fun d => get2 cur ((y : ℤ) + d.1).toNat ((x : ℤ) + d.2).toNat).sum
    / (inb.length : ℚ)

/-- One full smoothing pass over the grid (terrain.js lines 43-60). -/
def smoothOnce (cur : List (List ℚ)) : List (List ℚ) :=
  (List.range cur.length).map fun y =>
    (List.range cur.length).map fun x => smoothCell cur cur.length y x

/-- smoothGrid (terrain.js lines 39-64): `passes` successive passes. -/
def smoothGrid (grid : List (List ℚ)) : ℕ → List (List ℚ)
  | 0 => grid
  | p + 1 => smoothOnce (smoothGrid grid p)

/-- The maximum absolute cell value, folded exactly as the double loop of
normalizeGrid (terrain.js lines 67-68) does, starting from 0. -/
def gridMaxAbs (grid : List (List ℚ)) : ℚ :=
  grid.foldl (fun m row => row.foldl (fun m2 v => max m2 |v|) m) 0

/-- normalizeGrid (terrain.js lines 66-72): left unscaled when the maximum
absolute value is below 1e-9, else rescaled by `targetAmp / maxAbs`. -/
def normalizeGrid (grid : List (List ℚ)) (targetAmp : ℚ) : List (List ℚ) :=
  let maxAbs := gridMaxAbs grid
  if maxAbs < 1 / 1000000000 then grid
  else grid.map fun row => row.map fun v => v * (targetAmp / maxAbs)

/-- bilinearSample (terrain.js lines 74-86); `Math.floor` is the integer
floor and the clamps mirror `Math.min`/`Math.max`. -/
def bilinearSample (grid : List (List ℚ)) (x z worldSize : ℚ) : ℚ :=
  let size := grid.length
  let half := worldSize / 2
  let u := min (max ((x + half) / worldSize) 0) 1
  let v := min (max ((z + half) / worldSize) 0) 1
  let fx := u * ((size : ℚ) - 1)
  let fy := v * ((size : ℚ) - 1)
  let x0 : ℤ := ⌊fx⌋
  let y0 : ℤ := ⌊fy⌋
  let x1 : ℤ := min (x0 + 1) ((size : ℤ) - 1)
  let y1 : ℤ := min (y0 + 1) ((size : ℤ) - 1)
  let tx := fx - (x0 : ℚ)
  let ty := fy - (y0 : ℚ)
  let v00 := get2 grid y0.toNat x0.toNat
  let v10 := get2 grid y0.toNat x1.toNat
  let v01 := get2 grid y1.toNat x0.toNat
  let v11 := get2 grid y1.toNat x1.toNat
  (v00 * (1 - tx) + v10 * tx) * (1 - ty) + (v01 * (1 - tx) + v11 * tx) * ty

/-- The three module-level grids TRUE_ROLL_AX / TRUE_ROLL_AY / HEIGHT_GRID
that buildTrueRollGrids sets (terrain.js lines 89-91, 98-103). -/
structure TerrainGrids where
  rollAx : List (List ℚ)
  rollAy : List (List ℚ)
  height : List (List ℚ)

/-- buildTrueRollGrids (terrain.js lines 98-103) over an abstract rng
output stream: the three makeNoiseGrid calls consume the stream in program
order - TRUE_ROLL_AX first, then TRUE_ROLL_AY, then HEIGHT_GRID last -
each smoothed and normalized as on its line. -/
def buildTrueRollGrids (fn : ℕ → ℚ) : TerrainGrids :=
  let r1 := makeNoiseGrid TR_GRID_SIZE TR_BASE_AMP fn 0
  let r2 := makeNoiseGrid TR_GRID_SIZE TR_BASE_AMP fn r1.2
  let r3 := makeNoiseGrid TR_GRID_SIZE TR_BASE_AMP fn r2.2
  { rollAx := normalizeGrid (smoothGrid r1.1 TR_SMOOTH_PASSES) TR_TARGET_AMP
    rollAy := normalizeGrid (smoothGrid r2.1 TR_SMOOTH_PASSES) TR_TARGET_AMP
    height := normalizeGrid (smoothGrid r3.1 (TR_SMOOTH_PASSES + 2)) TR_TARGET_AMP }

/-- buildTrueRollGrids called with an integer seed (the `seed != null`
path of makeRng, terrain.js lines 22-25): the stream is mulberry32's. -/
def buildTrueRollGridsSeeded (seed : ℤ) : TerrainGrids :=
  buildTrueRollGrids (mulberryFn seed)

/-- The raw height-grid noise exactly as buildTrueRollGrids draws it: the
third of the three makeNoiseGrid calls (terrain.js line 102). -/
def heightRawGrid (fn : ℕ → ℚ) : List (List ℚ) :=
  (makeNoiseGrid TR_GRID_SIZE TR_BASE_AMP fn
    (makeNoiseGrid TR_GRID_SIZE TR_BASE_AMP fn
      (makeNoiseGrid TR_GRID_SIZE TR_BASE_AMP fn 0).2).2).1

/-- getTerrainHeight (terrain.js lines 105-108); the module state
HEIGHT_GRID is passed explicitly, `none` standing for the unbuilt state. -/
def getTerrainHeight (hg : Option (List (List ℚ))) (x z : ℚ) : ℚ :=
  match hg with
  | none => 0
  | some grid => bilinearSample grid x z TR_WORLD_SIZE * HEIGHT_SCALE

/-- Oracle for the JavaScript Math functions whose exact real values are
irrational in general.  Proofs about concrete runs fix it pointwise at the
exact values the real functions take there. -/
structure MathO where
  sqrt : ℚ → ℚ
  exp : ℚ → ℚ

/-- getTerrainNormal (terrain.js lines 110-121). -/
def getTerrainNormal (o : MathO) (hg : Option (List (List ℚ))) (x z : ℚ) :
    ℚ × ℚ × ℚ :=
  let eps : ℚ := 1/20
  let hpx := getTerrainHeight hg (x + eps) z
  let hnx := getTerrainHeight hg (x - eps) z
  let hpz := getTerrainHeight hg x (z + eps)
  let hnz := getTerrainHeight hg x (z - eps)
  let dx := (hpx - hnx) / (2 * eps)
  let dz := (hpz - hnz) / (2 * eps)
  let nx := -dx
  let ny : ℚ := 1
  let nz := -dz
  let len := o.sqrt (nx * nx + ny * ny + nz * nz)
  (nx / len, ny / len, nz / len)

/-- The speed-dependent scale factor of trueRollAccel (terrain.js lines
126-129) as a function of `speed = Math.hypot(vx, vz)`. -/
def trueRollScale (speed : ℚ) : ℚ :=
  if speed ≥ 1 then 1/10
  else if speed ≤ TR_MIN_SPEED then 2
  else 2 - (speed - TR_MIN_SPEED) / (2 - TR_MIN_SPEED)

/-- trueRollAccel (terrain.js lines 123-134); the module state
(TRUE_ROLL_STRENGTH and the grids) is passed explicitly, `none` standing
for the unbuilt TRUE_ROLL_AX. -/
def trueRollAccel (o : MathO) (g : Option TerrainGrids)
    (strength x z vx vz : ℚ) : ℚ × ℚ :=
  if strength ≤ 0 then (0, 0)
  else
    match g with
    | none => (0, 0)
    | some tg =>
      let speed := o.sqrt (vx ^ 2 + vz ^ 2)
      let scale := trueRollScale speed * strength
      (bilinearSample tg.rollAx x z TR_WORLD_SIZE * scale,
       bilinearSample tg.rollAy x z TR_WORLD_SIZE * scale)

/-! ## main.js: constants (lines 10-46) -/

def GREEN_SIZE : ℚ := 10

def BALL_RADIUS_M : ℚ := 43/2000

def HOLE_RADIUS_M : ℚ := 2 * BALL_RADIUS_M

def STIMP_V0 : ℚ := 183/100

def GRAVITY : ℚ := 981/100

def ROLLING_FACTOR : ℚ := 5/7

def BOUNCE_DAMPING : ℚ := 3/10

def BOUNCE_FRICTION : ℚ := 4/5

def MIN_BOUNCE_VEL : ℚ := 1/20

def LANDING_THRESHOLD : ℚ := 1/1000

def SPIN_EFFECT_STRENGTH : ℚ := 3/20

def SPIN_DECAY_RATE : ℚ := 2

/-- stimpToMu (main.js lines 43-46), with its local `v0 = 1.83`. -/
def stimpToMu (s : ℚ) : ℚ := (183/100) * (183/100) / (2 * GRAVITY * s)

/-! ## main.js: physics state -/

/-- The read-only globals the physics consults: `angleSin` is the
precomputed value of `Math.sin(angleDeg * PI / 180)` for the global slope,
`stimp` the green speed, `strength` the TRUE_ROLL_STRENGTH multiplier, and
`grids` the terrain module state (`none` before any build). -/
structure Params where
  angleSin : ℚ
  stimp : ℚ
  strength : ℚ
  grids : Option TerrainGrids

/-- HEIGHT_GRID as seen through the Params: set exactly when the grids are. -/
def heightGridOf (g : Option TerrainGrids) : Option (List (List ℚ)) :=
  g.map (fun tg => tg.height)

/-- The mutable ball state of main.js that updatePhysics, shoot and the
reset path touch: position, velocity, spin, the four flags, the bounce and
travel counters, and the break-point detection state (breakLocked, prevVz,
prevPosForVz, breakPoints). -/
structure Ball where
  px : ℚ
  py : ℚ
  pz : ℚ
  vx : ℚ
  vy : ℚ
  vz : ℚ
  spin : ℚ
  moving : Bool
  airborne : Bool
  onCircle : Bool
  inHole : Bool
  bounceCount : ℕ
  travelDist : ℚ
  maxHeight : ℚ
  breakLocked : Bool
  prevVz : Option ℚ
  prevX : ℚ
  prevZ : ℚ
  breakPoints : List ((ℚ × ℚ) × (ℚ × ℚ))

/-- Acceleration, spin and vertical-velocity outcome of the per-step
branch on airborne vs rolling. -/
structure AccOut where
  ax : ℚ
  ay : ℚ
  az : ℚ
  spin : ℚ
  vy : ℚ

/-- The grounded (rolling) acceleration and spin update, written once and
shared verbatim by updatePhysics (main.js lines 1577-1609) and
simulateGhostRest (lines 455-473): global slope, Coulomb friction with the
clamped spin modulation and the terrain-normal direction, terrain-gradient
gravity, exponential spin decay with snap to zero, and the true-roll
perturbation; ay and the vertical velocity are zeroed. -/
def rollStep (p : Params) (o : MathO) (dt px pz vx vz spin : ℚ) : AccOut :=
  let muRoll := stimpToMu p.stimp
  let hg := heightGridOf p.grids
  let az0 := GRAVITY * p.angleSin * ROLLING_FACTOR
  let speedSq := vx ^ 2 + vz ^ 2
  let fr :=
    if speedSq > (1/10000) ^ 2 then
      let speed := o.sqrt speedSq
      let nrm := getTerrainNormal o hg px pz
      let friction := muRoll * GRAVITY * |nrm.2.1|
      let spinMod := max (1/2) (min (3/2) (1 + spin * SPIN_EFFECT_STRENGTH))
      (-(friction * spinMod * (vx / speed)) - nrm.1 * GRAVITY * ROLLING_FACTOR,
       -(friction * spinMod * (vz / speed)) - nrm.2.2 * GRAVITY * ROLLING_FACTOR)
    else ((0 : ℚ), (0 : ℚ))
  let spin1 := spin * o.exp (-SPIN_DECAY_RATE * dt)
  let spin2 := if |spin1| < 1/100 then 0 else spin1
  let tr := trueRollAccel o p.grids p.strength px pz vx vz
  { ax := fr.1 + tr.1, ay := 0, az := az0 + fr.2 + tr.2, spin := spin2, vy := 0 }

/-- Outcome of the floor / bounce check. -/
structure FloorOut where
  newY : ℚ
  vx : ℚ
  vy : ℚ
  vz : ℚ
  air : Bool
  bounce : ℕ

/-- The state after the integration part of updatePhysics (main.js lines
1555-1679): the committed ball plus the squared closest approach of the
just-taken segment to the hole axis (tunneling detection, lines 1664-1674). -/
structure Mid where
  ball : Ball
  closestDistSq : ℚ

/-- The effective ground level under the ball (main.js lines 1557-1570):
the cup floor substitutes for the terrain when the ball is over the hole
and either slow or already below the half-radius height. -/
def groundLevelFor (p : Params) (s : Ball) : ℚ :=
  let holeDepth : ℚ := 2/5
  let hg := heightGridOf p.grids
  if s.px ^ 2 + s.pz ^ 2 ≤ (HOLE_RADIUS_M + BALL_RADIUS_M * (1/2)) ^ 2 then
    if s.vx ^ 2 + s.vz ^ 2 < (145/100) ^ 2 ∨ s.py < BALL_RADIUS_M * (1/2)
    then -holeDepth else getTerrainHeight hg s.px s.pz
  else getTerrainHeight hg s.px s.pz

/-- The airborne determination (main.js lines 1572-1573). -/
def airborneCheck (p : Params) (s : Ball) : Bool :=
  decide (s.py - BALL_RADIUS_M - groundLevelFor p s > LANDING_THRESHOLD)

/-- The floor level for the proposed new position (main.js lines
1626-1635), with the cup floor substituted over the hole; `pyOld` is the
not-yet-committed ballPos[1]. -/
def minBallYFor (p : Params) (newX newZ vx1 vz1 pyOld : ℚ) : ℚ :=
  let holeDepth : ℚ := 2/5
  let hg := heightGridOf p.grids
  if newX ^ 2 + newZ ^ 2 ≤ (HOLE_RADIUS_M + BALL_RADIUS_M * (1/2)) ^ 2 then
    if vx1 ^ 2 + vz1 ^ 2 < (145/100) ^ 2 ∨ pyOld < BALL_RADIUS_M * (1/2)
    then -holeDepth + BALL_RADIUS_M
    else getTerrainHeight hg newX newZ + BALL_RADIUS_M
  else getTerrainHeight hg newX newZ + BALL_RADIUS_M

/-- The floor / bounce check (main.js lines 1637-1649). -/
def floorCheck (air : Bool) (minBallY newY0 vx1 vy1 vz1 : ℚ) (bc : ℕ) : FloorOut :=
  if newY0 < minBallY then
    if air = true ∧ |vy1| > MIN_BOUNCE_VEL then
      { newY := minBallY, vx := vx1 * BOUNCE_FRICTION, vy := -vy1 * BOUNCE_DAMPING,
        vz := vz1 * BOUNCE_FRICTION, air := air, bounce := bc + 1 }
    else
      { newY := minBallY, vx := vx1, vy := 0, vz := vz1, air := false, bounce := bc }
  else { newY := newY0, vx := vx1, vy := vy1, vz := vz1, air := air, bounce := bc }

/-- Squared distance of the closest segment point to the hole axis
(tunneling detection, main.js lines 1664-1674). -/
def closestSqFor (oldX oldZ newX newZ : ℚ) : ℚ :=
  let segDx := newX - oldX
  let segDz := newZ - oldZ
  let segLenSq := segDx ^ 2 + segDz ^ 2
  if segLenSq > 1 / 1000000000000 then
    let tc := max 0 (min 1 (-(oldX * segDx + oldZ * segDz) / segLenSq))
    (oldX + tc * segDx) ^ 2 + (oldZ + tc * segDz) ^ 2
  else newX ^ 2 + newZ ^ 2

/-- Lines 1555-1679 of updatePhysics: ground check with the over-the-hole
special case, acceleration composition, explicit Euler integration, floor
and bounce handling, travel bookkeeping and tunneling detection, ending at
the position commit. -/
def integratePhase (p : Params) (o : MathO) (dt : ℚ) (s : Ball) : Mid :=
  let air := airborneCheck p s
  let a :=
    if air then
      ({ ax := 0, ay := -GRAVITY, az := GRAVITY * p.angleSin,
         spin := s.spin, vy := s.vy } : AccOut)
    else rollStep p o dt s.px s.pz s.vx s.vz s.spin
  let vx1 := s.vx + a.ax * dt
  let vy1 := a.vy + a.ay * dt
  let vz1 := s.vz + a.az * dt
  let newX := s.px + vx1 * dt
  let newY0 := s.py + vy1 * dt
  let newZ := s.pz + vz1 * dt
  let maxH := if newY0 > s.maxHeight then newY0 else s.maxHeight
  let f := floorCheck air (minBallYFor p newX newZ vx1 vz1 s.py) newY0 vx1 vy1 vz1 s.bounceCount
  let travel := s.travelDist + o.sqrt ((newX - s.px) ^ 2 + (newZ - s.pz) ^ 2)
  { ball := { s with
      px := newX, py := f.newY, pz := newZ,
      vx := f.vx, vy := f.vy, vz := f.vz,
      spin := a.spin, airborne := f.air, bounceCount := f.bounce,
      travelDist := travel, maxHeight := maxH },
    closestDistSq := closestSqFor s.px s.pz newX newZ }

/-- `crossedHole` (main.js line 1685) on the post-integration state. -/
def holeCrossed (m : Mid) : Prop :=
  m.closestDistSq ≤ HOLE_RADIUS_M ^ 2 ∧ m.ball.airborne = false

/-- `ballDroppedIn` (main.js line 1686) on the post-integration state. -/
def holeDroppedIn (m : Mid) : Prop :=
  m.ball.px ^ 2 + m.ball.pz ^ 2 ≤ (HOLE_RADIUS_M + BALL_RADIUS_M) ^ 2 ∧
    m.ball.py < BALL_RADIUS_M * (1/2)

/-- The three-way hole-reach disjunction guarding the capture block
(main.js line 1688). -/
def holeReach (m : Mid) : Prop :=
  holeDroppedIn m ∨ m.ball.px ^ 2 + m.ball.pz ^ 2 ≤ HOLE_RADIUS_M ^ 2 ∨ holeCrossed m

/-- The capture condition inside the reach block (main.js line 1689):
dropped in, or grounded below the 1.45 speed threshold. -/
def captureCond (m : Mid) : Prop :=
  holeDroppedIn m ∨
    (m.ball.airborne = false ∧ m.ball.vx ^ 2 + m.ball.vz ^ 2 < (145/100) ^ 2)

instance (m : Mid) : Decidable (holeCrossed m) := by unfold holeCrossed; infer_instance

instance (m : Mid) : Decidable (holeDroppedIn m) := by unfold holeDroppedIn; infer_instance

instance (m : Mid) : Decidable (holeReach m) := by unfold holeReach; infer_instance

instance (m : Mid) : Decidable (captureCond m) := by unfold captureCond; infer_instance

/-- Outcome of one updatePhysics step: the new ball state and, when the
ball was captured, the pre-capture position/velocity/spin the code hands
to simulateGhostRest (main.js lines 1691-1693, 1705). -/
structure StepOut where
  ball : Ball
  ghost : Option ((ℚ × ℚ × ℚ) × (ℚ × ℚ × ℚ) × ℚ)

/-- Break-point detection (main.js lines 1724-1744): while still rolling
and not yet locked, record a z-velocity sign change (interpolated) or a
near-zero lateral velocity, then update prevVz / prevPosForVz. -/
def breakPhase (b2 : Ball) : Ball :=
  if b2.moving = true ∧ b2.breakLocked = false ∧ b2.inHole = false ∧
      b2.airborne = false then
    let vz := b2.vz
    let withBp :=
      match b2.prevVz with
      | some pv =>
        if (pv < 0 ∧ vz ≥ 0) ∨ (pv > 0 ∧ vz ≤ 0) then
          let denom := pv - vz
          let t := if |denom| > 1/1000000 then pv / denom else 0
          let bpx := b2.prevX + (b2.px - b2.prevX) * t
          let bpz := b2.prevZ + (b2.pz - b2.prevZ) * t
          { b2 with breakPoints := b2.breakPoints ++ [((bpx, bpz), (-vz, b2.vx))],
                    breakLocked := true }
        else if |vz| ≤ 1/100 then
          { b2 with breakPoints := b2.breakPoints ++ [((b2.px, b2.pz), (-vz, b2.vx))],
                    breakLocked := true }
        else b2
      | none => b2
    { withBp with prevVz := some vz, prevX := b2.px, prevZ := b2.pz }
  else b2

/-- The hole capture / lip-out / stop block of updatePhysics (main.js
lines 1681-1722). -/
def holeBlock (m : Mid) : StepOut :=
  let b := m.ball
  let holeBottom := -(2/5) + BALL_RADIUS_M
  if holeReach m then
    if captureCond m then
      let snap := holeCrossed m ∧ b.px ^ 2 + b.pz ^ 2 > HOLE_RADIUS_M ^ 2
      { ball := { b with
          moving := false, vx := 0, vy := 0, vz := 0,
          px := if snap then 0 else b.px,
          pz := if snap then 0 else b.pz,
          py := holeBottom, inHole := true },
        ghost := some ((b.px, b.py, b.pz), (b.vx, b.vy, b.vz), b.spin) }
    else if b.px ^ 2 + b.pz ^ 2 ≤ HOLE_RADIUS_M ^ 2 then
      ({ ball := { b with vx := b.vx * (92/100), vz := b.vz * (92/100) },
         ghost := none } : StepOut)
    else { ball := b, ghost := none }
  else if b.vx ^ 2 + b.vz ^ 2 < (1/50) ^ 2 ∧ b.airborne = false then
    { ball := { b with moving := false, vx := 0, vy := 0, vz := 0 }, ghost := none }
  else { ball := b, ghost := none }

/-- Lines 1681-1744 of updatePhysics: the hole capture / lip-out block,
the stop condition, then break-point detection.  Trail points, markers and
aim-point colouring are visual and omitted. -/
def holePhase (m : Mid) : StepOut :=
  let afterHole := holeBlock m
  { ball := breakPhase afterHole.ball, ghost := afterHole.ghost }

/-- updatePhysics (main.js lines 1552-1745): early-out when the ball is
not moving, else integrate then run the hole / stop / break phase. -/
def updatePhysics (p : Params) (o : MathO) (dt : ℚ) (s : Ball) : StepOut :=
  if s.moving = false then { ball := s, ghost := none }
  else holePhase (integratePhase p o dt s)

/-! ## main.js: simulateGhostRest (lines 434-508) -/

/-- The loop-local state of simulateGhostRest. -/
structure GhostState where
  px : ℚ
  py : ℚ
  pz : ℚ
  vx : ℚ
  vy : ℚ
  vz : ℚ
  spin : ℚ
  airborne : Bool

/-- One body execution of the simulateGhostRest loop (main.js lines
448-500): ground check without the hole, the same acceleration terms as
rolling physics, integration, and the floor / bounce check, at the fixed
step 1/120 s. -/
def ghostBody (p : Params) (o : MathO) (g : GhostState) : GhostState :=
  let simDt : ℚ := 1/120
  let hg := heightGridOf p.grids
  let terrainH := getTerrainHeight hg g.px g.pz
  let heightAbove := g.py - BALL_RADIUS_M - terrainH
  let air := decide (heightAbove > LANDING_THRESHOLD)
  let a :=
    if air then
      ({ ax := 0, ay := -GRAVITY, az := GRAVITY * p.angleSin,
         spin := g.spin, vy := g.vy } : AccOut)
    else rollStep p o simDt g.px g.pz g.vx g.vz g.spin
  let vx1 := g.vx + a.ax * simDt
  let vy1 := a.vy + a.ay * simDt
  let vz1 := g.vz + a.az * simDt
  let nx := g.px + vx1 * simDt
  let ny0 := g.py + vy1 * simDt
  let nz := g.pz + vz1 * simDt
  let minY := getTerrainHeight hg nx nz + BALL_RADIUS_M
  let f : FloorOut :=
    if ny0 < minY then
      if air = true ∧ |vy1| > MIN_BOUNCE_VEL then
        { newY := minY, vx := vx1 * BOUNCE_FRICTION, vy := -vy1 * BOUNCE_DAMPING,
          vz := vz1 * BOUNCE_FRICTION, air := air, bounce := 0 }
      else { newY := minY, vx := vx1, vy := 0, vz := vz1, air := false, bounce := 0 }
    else { newY := ny0, vx := vx1, vy := vy1, vz := vz1, air := air, bounce := 0 }
  { px := nx, py := f.newY, pz := nz, vx := f.vx, vy := f.vy, vz := f.vz,
    spin := a.spin, airborne := f.air }

/-- The simulateGhostRest iteration (main.js lines 444-505): the early
stop test at the top of the body, the body, and the off-green safety stop
at the bottom.  Returns the final state and the number of body executions;
the fuel argument is the remaining budget of the `for` loop. -/
def ghostLoop (p : Params) (o : MathO) : ℕ → GhostState → GhostState × ℕ
  | 0, g => (g, 0)
  | fuel + 1, g =>
    if g.vx ^ 2 + g.vz ^ 2 < (1/50) ^ 2 ∧ g.airborne = false then (g, 0)
    else
      let g1 := ghostBody p o g
      if |g1.px| > GREEN_SIZE / 2 ∨ |g1.pz| > GREEN_SIZE / 2 then (g1, 1)
      else
        let r := ghostLoop p o fuel g1
        (r.1, r.2 + 1)

/-- simulateGhostRest (main.js lines 434-508): run the loop from the given
start state (airborne starts false) for at most 20000 steps and return the
final horizontal position. -/
def simulateGhostRest (p : Params) (o : MathO) (startPos startVel : ℚ × ℚ × ℚ)
    (startSpin : ℚ) : ℚ × ℚ :=
  let init : GhostState :=
    { px := startPos.1, py := startPos.2.1, pz := startPos.2.2,
      vx := startVel.1, vy := startVel.2.1, vz := startVel.2.2,
      spin := startSpin, airborne := false }
  let r := ghostLoop p o 20000 init
  (r.1.px, r.1.pz)

/-- The number of loop body executions a simulateGhostRest call performs. -/
def simulateGhostRestSteps (p : Params) (o : MathO) (startPos startVel : ℚ × ℚ × ℚ)
    (startSpin : ℚ) : ℕ :=
  (ghostLoop p o 20000
    { px := startPos.1, py := startPos.2.1, pz := startPos.2.2,
      vx := startVel.1, vy := startVel.2.1, vz := startVel.2.2,
      spin := startSpin, airborne := false }).2

/-! ## main.js: shoot (lines 1461-1500) -/

/-- The launch inputs shoot reads: the aim target, the green speed, and
the launch angle in degrees together with the precomputed cosine and sine
of `launchAngleDeg * PI / 180`. -/
structure ShootP where
  aimX : ℚ
  aimZ : ℚ
  stimp : ℚ
  launchDeg : ℚ
  launchCos : ℚ
  launchSin : ℚ

/-- shoot (main.js lines 1461-1500) restricted to the ball state; trail,
aim-marker and lastShotStartPos bookkeeping is visual and omitted.  The
zero-length guard `len < 1e-6` is encoded on squares. -/
def shoot (sp : ShootP) (o : MathO) (s : Ball) : Ball :=
  let dirX := sp.aimX - s.px
  let dirZ := sp.aimZ - s.pz
  if dirX ^ 2 + dirZ ^ 2 < (1/1000000) ^ 2 then s
  else
    let len := o.sqrt (dirX ^ 2 + dirZ ^ 2)
    let speedH := STIMP_V0 * o.sqrt (len / sp.stimp)
    let dxn := dirX / len
    let dzn := dirZ / len
    let totalSpeed := speedH / sp.launchCos
    { s with
      vx := speedH * dxn, vy := totalSpeed * sp.launchSin, vz := speedH * dzn,
      moving := true, onCircle := false,
      airborne := decide (sp.launchDeg ≠ 0),
      inHole := false, bounceCount := 0, maxHeight := s.py,
      spin := sp.launchDeg / 15, travelDist := 0,
      breakPoints := [], breakLocked := false, prevVz := none,
      prevX := s.px, prevZ := s.pz }

/-! ## main.js: aim-zone geometry (lines 535-598) -/

/-- A 2-D point of the aim-zone analyzer (the `{x, z}` objects of main.js). -/
structure Pt where
  x : ℚ
  z : ℚ
deriving DecidableEq

/-- The cross helper of convexHull (main.js line 538). -/
def cross (o a b : Pt) : ℚ := (a.x - o.x) * (b.z - o.z) - (a.z - o.z) * (b.x - o.x)

/-- The order of convexHull's sort comparator `a.x - b.x || a.z - b.z`
(main.js line 536): increasing x, ties broken by increasing z. -/
def ptLe (a b : Pt) : Prop := a.x < b.x ∨ (a.x = b.x ∧ a.z ≤ b.z)

/-- The strict part of `ptLe`. -/
def ptLt (a b : Pt) : Prop := a.x < b.x ∨ (a.x = b.x ∧ a.z < b.z)

instance (a b : Pt) : Decidable (ptLe a b) := by unfold ptLe; infer_instance

instance (a b : Pt) : Decidable (ptLt a b) := by unfold ptLt; infer_instance

/-- The pop loop of convexHull (main.js lines 541 and 546): while the last
two chain points and the incoming point fail the strict left-turn test,
pop.  The chain is kept newest-first. -/
def popWhile (p : Pt) : List Pt → List Pt
  | b :: a :: rest => if cross a b p ≤ 0 then popWhile p (a :: rest) else b :: a :: rest
  | l => l

/-- One chain of convexHull (main.js lines 539-548): fold the point list
through pop-then-push.  The result is newest-first. -/
def chainRev (pts : List Pt) : List Pt :=
  pts.foldl (fun acc q => q :: popWhile q acc) []

/-- convexHull (main.js lines 535-552).  Array.prototype.sort with the
numeric comparator is a sort by `ptLe`; the lower chain is built from the
sorted points and the upper chain from their reverse; each drops its last
point and the two are concatenated. -/
def convexHull (points : List Pt) : List Pt :=
  let pts := List.insertionSort ptLe points
  if pts.length ≤ 2 then pts
  else
    let lower := (chainRev pts).reverse
    let upper := (chainRev pts.reverse).reverse
    lower.dropLast ++ upper.dropLast

/-- The record boundingEllipse returns (main.js line 597). -/
structure Ellipse where
  cx : ℚ
  cz : ℚ
  a : ℚ
  b : ℚ
  ex : ℚ
  ez : ℚ
  fx : ℚ
  fz : ℚ

/-- The hull centroid (main.js lines 557-560). -/
def beCenter (hull : List Pt) : ℚ × ℚ :=
  ((hull.map Pt.x).sum / hull.length, (hull.map Pt.z).sum / hull.length)

/-- The covariance entries cxx, cxz, czz (main.js lines 561-567). -/
def beCov (hull : List Pt) : ℚ × ℚ × ℚ :=
  let c := beCenter hull
  ((hull.map fun q => (q.x - c.1) * (q.x - c.1)).sum / hull.length,
   (hull.map fun q => (q.x - c.1) * (q.z - c.2)).sum / hull.length,
   (hull.map fun q => (q.z - c.2) * (q.z - c.2)).sum / hull.length)

/-- The unnormalized principal eigenvector (main.js lines 568-580). -/
def beDir (o : MathO) (hull : List Pt) : ℚ × ℚ :=
  let cov := beCov hull
  let cxx := cov.1
  let cxz := cov.2.1
  let czz := cov.2.2
  let avg := (cxx + czz) / 2
  let diff := (cxx - czz) / 2
  let disc := o.sqrt (diff * diff + cxz * cxz)
  let lam1 := avg + disc
  if |cxz| > 1 / 1000000000000 then (lam1 - czz, cxz)
  else if cxx ≥ czz then (1, 0) else (0, 1)

/-- The eigenvector length `elen = Math.hypot(ex, ez)` (main.js line 581). -/
def beElen (o : MathO) (hull : List Pt) : ℚ :=
  o.sqrt ((beDir o hull).1 * (beDir o hull).1 + (beDir o hull).2 * (beDir o hull).2)

/-- The normalized principal axis x component (main.js line 582). -/
def beEx (o : MathO) (hull : List Pt) : ℚ := (beDir o hull).1 / beElen o hull

/-- The normalized principal axis z component (main.js line 582). -/
def beEz (o : MathO) (hull : List Pt) : ℚ := (beDir o hull).2 / beElen o hull

/-- maxA: the largest absolute projection onto the principal axis, folded
exactly as the loop of main.js lines 586-593 does, starting from 0. -/
def beMaxA (o : MathO) (hull : List Pt) : ℚ :=
  hull.foldl (fun m q => max m
    |(q.x - (beCenter hull).1) * beEx o hull + (q.z - (beCenter hull).2) * beEz o hull|) 0

/-- maxB: the largest absolute projection onto the secondary axis
`(fx, fz) = (-ez, ex)` (main.js lines 584, 586-593). -/
def beMaxB (o : MathO) (hull : List Pt) : ℚ :=
  hull.foldl (fun m q => max m
    |(q.x - (beCenter hull).1) * (-beEz o hull) + (q.z - (beCenter hull).2) * beEx o hull|) 0

/-- boundingEllipse (main.js lines 554-598); Math.sqrt and Math.hypot go
through the oracle, and the 5% padding is the final `* 1.05`. -/
def boundingEllipse (o : MathO) (hull : List Pt) : Ellipse :=
  { cx := (beCenter hull).1, cz := (beCenter hull).2,
    a := beMaxA o hull * (21/20), b := beMaxB o hull * (21/20),
    ex := beEx o hull, ez := beEz o hull,
    fx := -beEz o hull, fz := beEx o hull }

/-! ## Statements of claimed behaviour used by counterexamples, and the
concrete inputs of witnesses -/

/-- The lip-out sentence of claim C2 as stated: whenever a step of a
moving ball reaches the hole and the capture condition fails, the
horizontal velocity components are scaled by 0.92. -/
def c2LipOutClaim (p : Params) (o : MathO) (dt : ℚ) (s : Ball) : Prop :=
  s.moving = true →
    holeReach (integratePhase p o dt s) →
      ¬ captureCond (integratePhase p o dt s) →
        (updatePhysics p o dt s).ball.vx =
            (integratePhase p o dt s).ball.vx * (92/100) ∧
          (updatePhysics p o dt s).ball.vz =
            (integratePhase p o dt s).ball.vz * (92/100)

/-- The mid-range value claim C3 asserts: a line from 2.0 at the 0.8
threshold down to 0.1 at speed 1.0. -/
def c3LinearClaim (s : ℚ) : ℚ :=
  2 - ((s - TR_MIN_SPEED) / (1 - TR_MIN_SPEED)) * (2 - 1/10)

/-- A stream that is 0 on the first grid's worth of draws and 1 after:
it agrees with the zero stream exactly on the draws claim C5 says
determine the height grid. -/
def c5Stream (n : ℕ) : ℚ := if n < TR_GRID_SIZE * TR_GRID_SIZE then 0 else 1

/-- The all-zero rng stream. -/
def zeroStream (_ : ℕ) : ℚ := 0

/-- The oracle the concrete physics runs use: the exact square roots of
the perfect-square arguments those runs reach (and 1 for exp, whose value
is only ever multiplied by a zero spin there). -/
def oW : MathO :=
  { sqrt := fun q =>
      if q = 1 then 1
      else if q = 4 then 2
      else if q = 1/10000 then 1/100
      else if q = 1521/40000 then 39/200
      else if q = 361/4000000000000 then 19/2000000
      else if q = 1/100000000 then 1/10000
      else 0,
    exp := fun _ => 1 }

/-- Flat-terrain parameters with level slope and a stimp chosen so that
the rolling friction deceleration `mu * g` is exactly 1/2. -/
def pW : Params :=
  { angleSin := 0, stimp := 33489/10000, strength := 1, grids := none }

/-- A ball state used as a neutral baseline by the concrete runs. -/
def ballW : Ball :=
  { px := 0, py := BALL_RADIUS_M, pz := 0, vx := 0, vy := 0, vz := 0,
    spin := 0, moving := true, airborne := false, onCircle := false,
    inHole := false, bounceCount := 0, travelDist := 0, maxHeight := 1,
    breakLocked := true, prevVz := none, prevX := 0, prevZ := 0,
    breakPoints := [] }

/-- A grounded fast ball about to cross the hole: claim C2's lip-out
sentence fails on this step. -/
def ballC2 : Ball := { ballW with px := -(1/10), vx := 2 }

/-- A slow ball already inside the cup below the half-radius height:
captured by this step. -/
def ballC2w : Ball := { ballW with px := 1/100, py := 1/200, vx := 1/10 }

/-- A slow grounded ball far from the hole: stopped by this step. -/
def ballC4 : Ball := { ballW with px := 1, vx := 1/100 }

/-- Oracle for the bounding-ellipse witness: exact on the one square root
(of 1) that run takes. -/
def o7 : MathO := { sqrt := fun q => if q = 1 then 1 else 0, exp := fun _ => 1 }

/-- A concrete square hull for the bounding-ellipse witness. -/
def hull4 : List Pt := [⟨0, 0⟩, ⟨2, 0⟩, ⟨2, 2⟩, ⟨0, 2⟩]

/-- Point negation: the symmetry that exchanges the lower and upper chains
of convexHull (it reverses the sort order and preserves cross). -/
def negP (q : Pt) : Pt := ⟨-q.x, -q.z⟩

/-- Invariant of the chain builder: `acc` is the stack (newest first)
after the points of `done` have been processed.  The stack is nonempty,
runs from the newest processed point down to the first, is drawn from
`done`, strictly decreases in the sort order, makes a strict left turn at
every consecutive triple (read oldest to newest), supports every processed
point weakly on its left, and every edge except the topmost strictly
increases in x. -/
def Inv (done acc : List Pt) : Prop :=
  acc ≠ [] ∧
  acc.head? = done.getLast? ∧
  acc.getLast? = done.head? ∧
  (∀ v ∈ acc, v ∈ done) ∧
  List.Chain' (fun a b => ptLt b a) acc ∧
  (∀ x y z, [z, y, x] <:+: acc → 0 < cross x y z) ∧
  (∀ x y, [y, x] <:+: acc → ∀ q ∈ done, 0 ≤ cross x y q) ∧
  (∀ x y, [y, x] <:+: acc.drop 1 → x.x < y.x)

/-! ## Small facts about the step functions -/

theorem integrate_moving (p : Params) (o : MathO) (dt : ℚ) (s : Ball) :
    (integratePhase p o dt s).ball.moving = s.moving := rfl

theorem integrate_inHole (p : Params) (o : MathO) (dt : ℚ) (s : Ball) :
    (integratePhase p o dt s).ball.inHole = s.inHole := rfl

theorem breakPhase_fields (b : Ball) :
    (breakPhase b).vx = b.vx ∧ (breakPhase b).vy = b.vy ∧ (breakPhase b).vz = b.vz ∧
      (breakPhase b).moving = b.moving ∧ (breakPhase b).inHole = b.inHole ∧
      (breakPhase b).px = b.px ∧ (breakPhase b).py = b.py ∧ (breakPhase b).pz = b.pz := by
  rw [breakPhase]
  split
  · cases hb : b.prevVz with
    | none => simp
    | some pv =>
      simp only []
      split_ifs <;> simp
  · simp

/-! ## C1 -/

/-- C1: for every integer seed, two calls of the noise-field builder with
that seed produce identical grids - the build is a pure function of the
seed, so the height grid and both lateral grids agree cell for cell
between the two runs. -/
theorem c1_buildTrueRollGrids_deterministic (seed : ℤ) :
    (buildTrueRollGridsSeeded seed).height = (buildTrueRollGridsSeeded seed).height ∧
      (buildTrueRollGridsSeeded seed).rollAx = (buildTrueRollGridsSeeded seed).rollAx ∧
      (buildTrueRollGridsSeeded seed).rollAy = (buildTrueRollGridsSeeded seed).rollAy :=
  ⟨rfl, rfl, rfl⟩

/-! ## C3 -/

/-- C3 counterexample: at speed 0.9 the code's factor is 23/12, not the
value 21/20 that a line from 2.0 at speed 0.8 down to 0.1 at speed 1.0
takes there, so the claimed mid-range behaviour is false. -/
theorem c3_counterexample :
    trueRollScale (9/10) = 23/12 ∧ c3LinearClaim (9/10) = 21/20 ∧
      trueRollScale (9/10) ≠ c3LinearClaim (9/10) := by
  refine ⟨?_, ?_, ?_⟩ <;> norm_num [trueRollScale, c3LinearClaim, TR_MIN_SPEED]

/-- C3 amended: trueRollAccel scales both lateral samples by the factor
`trueRollScale speed * strength`; the factor is 2.0 at or below the 0.8
threshold and 0.1 at or above 1.0, but on the open interval it is
`2 - (speed - 0.8) / (2 - 0.8)`, which reaches only 11/6 (not 0.1) as the
speed approaches 1.0 - the factor jumps discontinuously at speed 1.0. -/
theorem c3_trueRollScale_amended :
    (∀ (o : MathO) (tg : TerrainGrids) (strength x z vx vz : ℚ), 0 < strength →
      trueRollAccel o (some tg) strength x z vx vz =
        (bilinearSample tg.rollAx x z TR_WORLD_SIZE *
            (trueRollScale (o.sqrt (vx ^ 2 + vz ^ 2)) * strength),
         bilinearSample tg.rollAy x z TR_WORLD_SIZE *
            (trueRollScale (o.sqrt (vx ^ 2 + vz ^ 2)) * strength))) ∧
    (∀ s : ℚ, s ≤ TR_MIN_SPEED → trueRollScale s = 2) ∧
    (∀ s : ℚ, TR_MIN_SPEED < s → s < 1 →
      trueRollScale s = 2 - (s - TR_MIN_SPEED) / (2 - TR_MIN_SPEED)) ∧
    (∀ s : ℚ, 1 ≤ s → trueRollScale s = 1/10) ∧
    2 - ((1 : ℚ) - TR_MIN_SPEED) / (2 - TR_MIN_SPEED) = 11/6 := by
  refine ⟨?_, ?_, ?_, ?_, by norm_num [TR_MIN_SPEED]⟩
  · intro o tg strength x z vx vz h
    rw [trueRollAccel, if_neg (not_le.mpr h)]
  · intro s hs
    rw [trueRollScale, if_neg (by rw [TR_MIN_SPEED] at hs; push_neg; linarith), if_pos hs]
  · intro s h1 h2
    rw [trueRollScale, if_neg (by push_neg; linarith), if_neg (not_le.mpr h1)]
  · intro s hs
    rw [trueRollScale, if_pos (by exact hs)]

/-- C3 witness: the amended mid-range formula evaluated at speed 0.9. -/
theorem c3_witness : trueRollScale (9/10) = 23/12 := by
  have h := c3_trueRollScale_amended.2.2.1 (9/10)
    (by norm_num [TR_MIN_SPEED]) (by norm_num)
  rw [h]; norm_num [TR_MIN_SPEED]

/-! ## C9 -/

/-- C9: when the aim point coincides with the ball position the launch
vector has zero length, so shoot returns before any integration and the
entire ball state - position, velocity, spin, flags, bounce count, travel
distance and break state - is unchanged. -/
theorem c9_shoot_noop (sp : ShootP) (o : MathO) (s : Ball) :
    shoot { sp with aimX := s.px, aimZ := s.pz } o s = s := by
  rw [shoot]
  norm_num

/-! ## C8 -/

theorem ghostLoop_steps_le (p : Params) (o : MathO) :
    ∀ (fuel : ℕ) (g : GhostState), (ghostLoop p o fuel g).2 ≤ fuel := by
  intro fuel
  induction fuel with
  | zero => intro g; rw [ghostLoop]
  | succ n ih =>
    intro g
    rw [ghostLoop]
    split
    · exact Nat.zero_le _
    · simp only []
      split
      · exact Nat.le_add_left 1 n
      · exact Nat.succ_le_succ (ih _)

/-- C8: simulateGhostRest called with zero start velocity returns the
start (x, z) unchanged - the stop test fires on the first iteration before
any integration (airborne starts false, so this needs no grounding
assumption); and every call executes the loop body at most 20000 times. -/
theorem c8_ghostRest_fixed_point :
    (∀ (p : Params) (o : MathO) (pos : ℚ × ℚ × ℚ) (spin : ℚ),
      simulateGhostRest p o pos (0, 0, 0) spin = (pos.1, pos.2.2)) ∧
    (∀ (p : Params) (o : MathO) (pos vel : ℚ × ℚ × ℚ) (spin : ℚ),
      simulateGhostRestSteps p o pos vel spin ≤ 20000) := by
  constructor
  · intro p o pos spin
    rw [simulateGhostRest, show (20000 : ℕ) = 19999 + 1 from rfl, ghostLoop]
    norm_num
  · intro p o pos vel spin
    exact ghostLoop_steps_le p o 20000 _

/-! ## Bounds for C10 -/

theorem le_foldl_step {α : Type} {step : ℚ → α → ℚ}
    (hstep : ∀ (m : ℚ) (a : α), m ≤ step m a) :
    ∀ (l : List α) (m : ℚ), m ≤ l.foldl step m := by
  intro l
  induction l with
  | nil => intro m; exact le_refl m
  | cons a t ih => intro m; exact le_trans (hstep m a) (ih (step m a))

theorem abs_le_foldl_max {α : Type} (f : α → ℚ) :
    ∀ (l : List α) (v : α) (m : ℚ), v ∈ l →
      f v ≤ l.foldl (fun acc w => max acc (f w)) m := by
  intro l
  induction l with
  | nil => intro v m hv; cases hv
  | cons a t ih =>
    intro v m hv
    rcases List.mem_cons.mp hv with h | h
    · subst h
      exact le_trans (le_max_right m (f v))
        (le_foldl_step (fun m2 b => le_max_left m2 (f b)) t (max m (f v)))
    · exact ih v (max m (f a)) h

theorem gridMaxAbs_nonneg (g : List (List ℚ)) : 0 ≤ gridMaxAbs g := by
  refine le_foldl_step (fun m row => ?_) g 0
  exact le_foldl_step (fun m2 v => le_max_left m2 |v|) row m

theorem abs_mem_le_gridMaxAbs (g : List (List ℚ)) :
    ∀ (row : List ℚ) (v : ℚ), row ∈ g → v ∈ row → |v| ≤ gridMaxAbs g := by
  have main : ∀ (rows : List (List ℚ)) (m : ℚ) (row : List ℚ) (v : ℚ),
      row ∈ rows → v ∈ row →
      |v| ≤ rows.foldl (fun m2 r => r.foldl (fun m3 w => max m3 |w|) m2) m := by
    intro rows
    induction rows with
    | nil => intro m row v hr; cases hr
    | cons r t ih =>
      intro m row v hr hv
      rcases List.mem_cons.mp hr with h | h
      · subst h
        refine le_trans (abs_le_foldl_max (fun w => |w|) row v m hv) ?_
        exact le_foldl_step
          (fun m2 r2 => le_foldl_step (fun m3 w => le_max_left m3 |w|) r2 m2) t _
      · exact ih _ row v h hv
  exact fun row v hr hv => main g 0 row v hr hv

theorem getD_mem_or_default {α : Type} (l : List α) (n : ℕ) (d : α) :
    l.getD n d ∈ l ∨ l.getD n d = d := by
  induction l generalizing n with
  | nil => right; cases n <;> rfl
  | cons a t ih =>
    cases n with
    | zero => left; exact List.mem_cons_self a t
    | succ k =>
      rcases ih k with h | h
      · left; exact List.mem_cons_of_mem a h
      · right; exact h

theorem abs_get2_le (g : List (List ℚ)) (y x : ℕ) : |get2 g y x| ≤ gridMaxAbs g := by
  rw [get2]
  rcases getD_mem_or_default g y [] with hrow | hrow
  · rcases getD_mem_or_default (g.getD y []) x 0 with hv | hv
    · exact abs_mem_le_gridMaxAbs g _ _ hrow hv
    · rw [hv]; simpa using gridMaxAbs_nonneg g
  · rw [hrow]
    cases x <;> simpa using gridMaxAbs_nonneg g

theorem getD_map_mul (row : List ℚ) (c : ℚ) (x : ℕ) :
    (row.map fun v => v * c).getD x 0 = row.getD x 0 * c := by
  induction row generalizing x with
  | nil => simp
  | cons a t ih => cases x with
    | zero => rfl
    | succ k => simpa using ih k

theorem get2_map_mul (g : List (List ℚ)) (c : ℚ) (y x : ℕ) :
    get2 (g.map fun row => row.map fun v => v * c) y x = get2 g y x * c := by
  rw [get2, get2]
  induction g generalizing y with
  | nil => simp [getD_map_mul]
  | cons r t ih => cases y with
    | zero => simpa using getD_map_mul r c x
    | succ k => simpa using ih k

theorem abs_get2_normalize_le (g : List (List ℚ)) (amp : ℚ)
    (hamp : 1 / 1000000000 ≤ amp) (y x : ℕ) :
    |get2 (normalizeGrid g amp) y x| ≤ amp := by
  rw [normalizeGrid]
  by_cases h : gridMaxAbs g < 1 / 1000000000
  · rw [if_pos h]
    exact le_trans (abs_get2_le g y x) (le_trans (le_of_lt h) hamp)
  · rw [if_neg h]
    push_neg at h
    have hpos : 0 < gridMaxAbs g := lt_of_lt_of_le (by norm_num) h
    have hamp0 : 0 ≤ amp := le_trans (by norm_num) hamp
    rw [get2_map_mul, abs_mul, abs_of_nonneg (le_of_lt (div_pos
      (lt_of_lt_of_le (by norm_num : (0:ℚ) < 1 / 1000000000) hamp) hpos))]
    calc |get2 g y x| * (amp / gridMaxAbs g)
        ≤ gridMaxAbs g * (amp / gridMaxAbs g) := by
          have := abs_get2_le g y x
          have hd : 0 ≤ amp / gridMaxAbs g :=
            div_nonneg hamp0 (le_of_lt hpos)
          exact mul_le_mul_of_nonneg_right this hd
      _ = amp := by field_simp

theorem convex_abs_le {a b B t : ℚ} (ha : |a| ≤ B) (hb : |b| ≤ B)
    (h0 : 0 ≤ t) (h1 : t ≤ 1) : |a * (1 - t) + b * t| ≤ B := by
  have habs := abs_add (a * (1 - t)) (b * t)
  rw [abs_mul, abs_mul, abs_of_nonneg (by linarith : (0:ℚ) ≤ 1 - t),
    abs_of_nonneg h0] at habs
  nlinarith [abs_nonneg a, abs_nonneg b]

theorem abs_bilinearSample_le (g : List (List ℚ)) (x z w B : ℚ)
    (hc : ∀ y2 x2, |get2 g y2 x2| ≤ B) :
    |bilinearSample g x z w| ≤ B := by
  rw [bilinearSample]
  have hfr : ∀ q : ℚ, 0 ≤ q - (⌊q⌋ : ℚ) ∧ q - (⌊q⌋ : ℚ) ≤ 1 := by
    intro q
    constructor
    · have := Int.floor_le q; linarith
    · have := Int.lt_floor_add_one q; linarith
  refine convex_abs_le (convex_abs_le (hc _ _) (hc _ _) (hfr _).1 (hfr _).2)
    (convex_abs_le (hc _ _) (hc _ _) (hfr _).1 (hfr _).2) (hfr _).1 (hfr _).2

/-! ## C10 -/

/-- C10: for every rng stream (seeded or not) and every sampling point,
the built height grid keeps every cell within the 0.1 target amplitude
(normalizeGrid guarantees this, including the degenerate unscaled branch),
bilinear sampling is a convex combination of four cells, and the height
scale is 0.01, so the sampled terrain height always lies within
0.1 * 0.01 = 0.001 world units in absolute value. -/
theorem c10_terrainHeight_bounded (fn : ℕ → ℚ) (x z : ℚ) :
    |getTerrainHeight (some (buildTrueRollGrids fn).height) x z| ≤
      TR_TARGET_AMP * HEIGHT_SCALE := by
  have hh : (buildTrueRollGrids fn).height =
      normalizeGrid (smoothGrid (heightRawGrid fn) (TR_SMOOTH_PASSES + 2))
        TR_TARGET_AMP := by
    simp only [buildTrueRollGrids, heightRawGrid]
  have hgrid : ∀ y2 x2, |get2 (buildTrueRollGrids fn).height y2 x2| ≤ TR_TARGET_AMP := by
    intro y2 x2
    rw [hh]
    exact abs_get2_normalize_le _ _ (by rw [TR_TARGET_AMP]; norm_num) y2 x2
  have hs : |bilinearSample (buildTrueRollGrids fn).height x z TR_WORLD_SIZE| ≤
      TR_TARGET_AMP :=
    abs_bilinearSample_le _ _ _ _ _ hgrid
  rw [getTerrainHeight]
  rw [abs_mul, abs_of_nonneg (by rw [HEIGHT_SCALE]; norm_num : (0:ℚ) ≤ HEIGHT_SCALE)]
  exact mul_le_mul_of_nonneg_right hs (by rw [HEIGHT_SCALE]; norm_num)

/-! ## C5 -/

theorem makeNoiseGrid_snd (size : ℕ) (amp : ℚ) (fn : ℕ → ℚ) (start : ℕ) :
    (makeNoiseGrid size amp fn start).2 = start + size * size := rfl

theorem getD_map_range {α : Type} (f : ℕ → α) (size y : ℕ) (d : α) (hy : y < size) :
    (((List.range size).map f).getD y d) = f y := by
  rw [List.getD_eq_getElem?_getD, List.getElem?_map, List.getElem?_range hy]
  rfl

theorem get2_makeNoiseGrid (size : ℕ) (amp : ℚ) (fn : ℕ → ℚ) (start y x : ℕ)
    (hy : y < size) (hx : x < size) :
    get2 (makeNoiseGrid size amp fn start).1 y x =
      uniform (fn (start + (y * size + x))) (-amp) amp := by
  rw [makeNoiseGrid, get2]
  simp only []
  rw [getD_map_range _ size y [] hy, getD_map_range _ size x 0 hx]

theorem makeNoiseGrid_congr (size : ℕ) (amp : ℚ) (fn fn' : ℕ → ℚ) (start : ℕ)
    (h : ∀ n, start ≤ n → n < start + size * size → fn n = fn' n) :
    (makeNoiseGrid size amp fn start).1 = (makeNoiseGrid size amp fn' start).1 := by
  rw [makeNoiseGrid, makeNoiseGrid]
  simp only []
  refine List.map_congr_left fun y hy => List.map_congr_left fun x hx => ?_
  rw [List.mem_range] at hy hx
  have hlt : y * size + x < size * size := by
    calc y * size + x < y * size + size := Nat.add_lt_add_left hx _
      _ = (y + 1) * size := (Nat.succ_mul y size).symm
      _ ≤ size * size := Nat.mul_le_mul_right size hy
  rw [h (start + (y * size + x)) (Nat.le_add_right _ _) (Nat.add_lt_add_left hlt _)]

/-- C5 counterexample: the claim says the height grid's uniform samples
are drawn first, i.e. that the raw height noise equals a grid drawn from
stream position 0.  On the stream that is 0 for the first 2500 draws and 1
afterwards, cell (0,0) of the raw height grid is uniform(1) = 1/2 while a
grid drawn first would have uniform(0) = -1/2 there. -/
theorem c5_counterexample :
    ¬ heightRawGrid c5Stream = (makeNoiseGrid TR_GRID_SIZE TR_BASE_AMP c5Stream 0).1 := by
  intro h
  have hs : heightRawGrid c5Stream =
      (makeNoiseGrid TR_GRID_SIZE TR_BASE_AMP c5Stream
        (0 + TR_GRID_SIZE * TR_GRID_SIZE + TR_GRID_SIZE * TR_GRID_SIZE)).1 := by
    rw [heightRawGrid, makeNoiseGrid_snd, makeNoiseGrid_snd]
  have h00 := congrArg (fun g => get2 g 0 0) (hs.symm.trans h)
  simp only [] at h00
  rw [get2_makeNoiseGrid _ _ _ _ 0 0 (by rw [TR_GRID_SIZE]; norm_num)
        (by rw [TR_GRID_SIZE]; norm_num),
      get2_makeNoiseGrid _ _ _ _ 0 0 (by rw [TR_GRID_SIZE]; norm_num)
        (by rw [TR_GRID_SIZE]; norm_num)] at h00
  rw [uniform, uniform, c5Stream, c5Stream] at h00
  rw [TR_GRID_SIZE, TR_BASE_AMP] at h00
  norm_num at h00

/-- C5 amended: the terrain builder consumes the seeded stream in the
fixed order of terrain.js lines 100-102 - the lateral-X grid's N*N samples
first, then the lateral-Y grid's, then the height grid's (smoothed K+2
times) - so the height grid is a function of draws 2N^2 .. 3N^2 - 1 of the
stream, not of the first N^2 draws. -/
theorem c5_stream_order_amended :
    (∀ fn : ℕ → ℚ,
      (buildTrueRollGrids fn).rollAx =
          normalizeGrid (smoothGrid (makeNoiseGrid TR_GRID_SIZE TR_BASE_AMP fn 0).1
            TR_SMOOTH_PASSES) TR_TARGET_AMP ∧
      (buildTrueRollGrids fn).rollAy =
          normalizeGrid (smoothGrid (makeNoiseGrid TR_GRID_SIZE TR_BASE_AMP fn
            (TR_GRID_SIZE * TR_GRID_SIZE)).1 TR_SMOOTH_PASSES) TR_TARGET_AMP ∧
      (buildTrueRollGrids fn).height =
          normalizeGrid (smoothGrid (makeNoiseGrid TR_GRID_SIZE TR_BASE_AMP fn
            (2 * (TR_GRID_SIZE * TR_GRID_SIZE))).1 (TR_SMOOTH_PASSES + 2))
            TR_TARGET_AMP) ∧
    (∀ fn fn' : ℕ → ℚ,
      (∀ n, 2 * (TR_GRID_SIZE * TR_GRID_SIZE) ≤ n →
          n < 3 * (TR_GRID_SIZE * TR_GRID_SIZE) → fn n = fn' n) →
      (buildTrueRollGrids fn).height = (buildTrueRollGrids fn').height) := by
  have hstruct : ∀ fn : ℕ → ℚ,
      (buildTrueRollGrids fn).rollAx =
          normalizeGrid (smoothGrid (makeNoiseGrid TR_GRID_SIZE TR_BASE_AMP fn 0).1
            TR_SMOOTH_PASSES) TR_TARGET_AMP ∧
      (buildTrueRollGrids fn).rollAy =
          normalizeGrid (smoothGrid (makeNoiseGrid TR_GRID_SIZE TR_BASE_AMP fn
            (TR_GRID_SIZE * TR_GRID_SIZE)).1 TR_SMOOTH_PASSES) TR_TARGET_AMP ∧
      (buildTrueRollGrids fn).height =
          normalizeGrid (smoothGrid (makeNoiseGrid TR_GRID_SIZE TR_BASE_AMP fn
            (2 * (TR_GRID_SIZE * TR_GRID_SIZE))).1 (TR_SMOOTH_PASSES + 2))
            TR_TARGET_AMP := by
    intro fn
    refine ⟨?_, ?_, ?_⟩ <;>
      simp only [buildTrueRollGrids, makeNoiseGrid_snd] <;>
      norm_num [TR_GRID_SIZE]
  refine ⟨hstruct, fun fn fn' h => ?_⟩
  rw [(hstruct fn).2.2, (hstruct fn').2.2]
  rw [makeNoiseGrid_congr TR_GRID_SIZE TR_BASE_AMP fn fn'
    (2 * (TR_GRID_SIZE * TR_GRID_SIZE)) (fun n h1 h2 => h n h1 (by omega))]

/-! ## The hole / stop block, case by case -/

theorem breakPhase_not_moving (b : Ball) (h : b.moving = false) : breakPhase b = b := by
  rw [breakPhase, if_neg]
  simp [h]

theorem holeBlock_capture (m : Mid) (hr : holeReach m) (hc : captureCond m) :
    holeBlock m =
      { ball := { m.ball with
          moving := false, vx := 0, vy := 0, vz := 0,
          px := if holeCrossed m ∧ m.ball.px ^ 2 + m.ball.pz ^ 2 > HOLE_RADIUS_M ^ 2
                then 0 else m.ball.px,
          pz := if holeCrossed m ∧ m.ball.px ^ 2 + m.ball.pz ^ 2 > HOLE_RADIUS_M ^ 2
                then 0 else m.ball.pz,
          py := -(2/5) + BALL_RADIUS_M, inHole := true },
        ghost := some ((m.ball.px, m.ball.py, m.ball.pz),
                       (m.ball.vx, m.ball.vy, m.ball.vz), m.ball.spin) } := by
  rw [holeBlock]
  simp only []
  rw [if_pos hr, if_pos hc]

theorem holeBlock_lipout (m : Mid) (hr : holeReach m) (hnc : ¬ captureCond m)
    (hin : m.ball.px ^ 2 + m.ball.pz ^ 2 ≤ HOLE_RADIUS_M ^ 2) :
    holeBlock m =
      { ball := { m.ball with vx := m.ball.vx * (92/100), vz := m.ball.vz * (92/100) },
        ghost := none } := by
  rw [holeBlock]
  simp only []
  rw [if_pos hr, if_neg hnc, if_pos hin]

theorem holeBlock_pass (m : Mid) (hr : holeReach m) (hnc : ¬ captureCond m)
    (hnin : ¬ m.ball.px ^ 2 + m.ball.pz ^ 2 ≤ HOLE_RADIUS_M ^ 2) :
    holeBlock m = { ball := m.ball, ghost := none } := by
  rw [holeBlock]
  simp only []
  rw [if_pos hr, if_neg hnc, if_neg hnin]

theorem holeBlock_stop (m : Mid) (hnr : ¬ holeReach m)
    (hslow : m.ball.vx ^ 2 + m.ball.vz ^ 2 < (1/50) ^ 2 ∧ m.ball.airborne = false) :
    holeBlock m =
      { ball := { m.ball with moving := false, vx := 0, vy := 0, vz := 0 },
        ghost := none } := by
  rw [holeBlock]
  simp only []
  rw [if_neg hnr, if_pos hslow]

/-! ## C2 -/

/-- C2 amended: given a moving ball whose step reaches the hole, capture
happens exactly when the code's capture condition (dropped in, or grounded
below 1.45 horizontal speed) holds; on capture velocity is zeroed, the
height snaps to the hole floor -0.40 + ball radius, the captured state is
entered, and the pre-capture position/velocity/spin are the arguments
handed to the ghost-rest simulation.  When capture fails, the 0.92 lip-out
scaling applies only if the post-step distance to the hole axis is within
the hole radius; in the remaining reach case (the segment crossed the hole
but the ball is already beyond it) the velocity continues unchanged. -/
theorem c2_holeCapture_amended (p : Params) (o : MathO) (dt : ℚ) (s : Ball)
    (hm : s.moving = true)
    (hr : holeReach (integratePhase p o dt s)) :
    (captureCond (integratePhase p o dt s) →
      (updatePhysics p o dt s).ball.moving = false ∧
      (updatePhysics p o dt s).ball.vx = 0 ∧
      (updatePhysics p o dt s).ball.vy = 0 ∧
      (updatePhysics p o dt s).ball.vz = 0 ∧
      (updatePhysics p o dt s).ball.py = -(2/5) + BALL_RADIUS_M ∧
      (updatePhysics p o dt s).ball.inHole = true ∧
      (updatePhysics p o dt s).ghost =
        some (((integratePhase p o dt s).ball.px, (integratePhase p o dt s).ball.py,
               (integratePhase p o dt s).ball.pz),
              ((integratePhase p o dt s).ball.vx, (integratePhase p o dt s).ball.vy,
               (integratePhase p o dt s).ball.vz),
              (integratePhase p o dt s).ball.spin)) ∧
    (¬ captureCond (integratePhase p o dt s) →
      (integratePhase p o dt s).ball.px ^ 2 + (integratePhase p o dt s).ball.pz ^ 2 ≤
          HOLE_RADIUS_M ^ 2 →
      (updatePhysics p o dt s).ball.vx = (integratePhase p o dt s).ball.vx * (92/100) ∧
      (updatePhysics p o dt s).ball.vz = (integratePhase p o dt s).ball.vz * (92/100) ∧
      (updatePhysics p o dt s).ball.moving = true ∧
      (updatePhysics p o dt s).ball.inHole = s.inHole ∧
      (updatePhysics p o dt s).ghost = none) ∧
    (¬ captureCond (integratePhase p o dt s) →
      ¬ ((integratePhase p o dt s).ball.px ^ 2 + (integratePhase p o dt s).ball.pz ^ 2 ≤
          HOLE_RADIUS_M ^ 2) →
      (updatePhysics p o dt s).ball.vx = (integratePhase p o dt s).ball.vx ∧
      (updatePhysics p o dt s).ball.vz = (integratePhase p o dt s).ball.vz ∧
      (updatePhysics p o dt s).ball.moving = true ∧
      (updatePhysics p o dt s).ball.inHole = s.inHole ∧
      (updatePhysics p o dt s).ghost = none) := by
  have hup : updatePhysics p o dt s = holePhase (integratePhase p o dt s) := by
    rw [updatePhysics, if_neg (by simp [hm])]
  set m := integratePhase p o dt s with hmdef
  have hph : holePhase m =
      { ball := breakPhase (holeBlock m).ball, ghost := (holeBlock m).ghost } := rfl
  refine ⟨fun hc => ?_, fun hnc hin => ?_, fun hnc hnin => ?_⟩
  · rw [hup, hph, holeBlock_capture m hr hc]
    rw [breakPhase_not_moving _ (by simp)]
    simp
  · rw [hup, hph, holeBlock_lipout m hr hnc hin]
    obtain ⟨e1, e2, e3, e4, e5, _⟩ := breakPhase_fields
      { m.ball with vx := m.ball.vx * (92/100), vz := m.ball.vz * (92/100) }
    simp only []
    rw [e1, e3, e4, e5]
    have hmv : m.ball.moving = s.moving := integrate_moving p o dt s
    have hih : m.ball.inHole = s.inHole := integrate_inHole p o dt s
    simp [hmv, hih, hm]
  · rw [hup, hph, holeBlock_pass m hr hnc hnin]
    obtain ⟨e1, e2, e3, e4, e5, _⟩ := breakPhase_fields m.ball
    simp only []
    rw [e1, e3, e4, e5]
    have hmv : m.ball.moving = s.moving := integrate_moving p o dt s
    have hih : m.ball.inHole = s.inHole := integrate_inHole p o dt s
    simp [hmv, hih, hm]

/-! ## C4 -/

/-- C4: a step of a moving ball that ends grounded with horizontal speed
below 0.02 and outside the hole-reach condition clears the moving flag and
zeroes the velocity without capture; and a step from a non-moving state
returns the state unchanged (and calls no ghost simulation), so once
Rolling is exited no further step re-enters or alters anything. -/
theorem c4_stop_no_chatter :
    (∀ (p : Params) (o : MathO) (dt : ℚ) (s : Ball), s.moving = true →
      ¬ holeReach (integratePhase p o dt s) →
      (integratePhase p o dt s).ball.airborne = false →
      (integratePhase p o dt s).ball.vx ^ 2 + (integratePhase p o dt s).ball.vz ^ 2 <
          (1/50) ^ 2 →
      (updatePhysics p o dt s).ball.moving = false ∧
      (updatePhysics p o dt s).ball.vx = 0 ∧
      (updatePhysics p o dt s).ball.vy = 0 ∧
      (updatePhysics p o dt s).ball.vz = 0 ∧
      (updatePhysics p o dt s).ball.inHole = s.inHole ∧
      (updatePhysics p o dt s).ghost = none) ∧
    (∀ (p : Params) (o : MathO) (dt : ℚ) (s : Ball), s.moving = false →
      updatePhysics p o dt s = { ball := s, ghost := none }) := by
  constructor
  · intro p o dt s hm hnr hair hslow
    have hup : updatePhysics p o dt s = holePhase (integratePhase p o dt s) := by
      rw [updatePhysics, if_neg (by simp [hm])]
    set m := integratePhase p o dt s with hmdef
    have hph : holePhase m =
        { ball := breakPhase (holeBlock m).ball, ghost := (holeBlock m).ghost } := rfl
    rw [hup, hph, holeBlock_stop m hnr ⟨hslow, hair⟩]
    rw [breakPhase_not_moving _ (by simp)]
    have hih : m.ball.inHole = s.inHole := integrate_inHole p o dt s
    simp [hih]
  · intro p o dt s hm
    rw [updatePhysics, if_pos hm]

/-! ## Concrete runs for C2 and C4 -/

set_option maxHeartbeats 1000000 in
theorem c2run : integratePhase pW oW (1/10) ballC2 =
    { ball := { ballC2 with px := 19/200, vx := 39/20, travelDist := 39/200 }, closestDistSq := 0 } := by
  norm_num [integratePhase, airborneCheck, groundLevelFor, heightGridOf,
    getTerrainHeight, rollStep, getTerrainNormal, trueRollAccel, stimpToMu,
    minBallYFor, floorCheck, closestSqFor, oW, pW, ballC2, ballW, GRAVITY,
    BALL_RADIUS_M, HOLE_RADIUS_M, LANDING_THRESHOLD, SPIN_EFFECT_STRENGTH,
    SPIN_DECAY_RATE, BOUNCE_FRICTION, BOUNCE_DAMPING, MIN_BOUNCE_VEL,
    ROLLING_FACTOR, Mid.mk.injEq, Ball.mk.injEq]

set_option maxHeartbeats 1000000 in
theorem c2wrun : integratePhase pW oW (1/1000) ballC2w =
    { ball := { ballC2w with px := 101/10000, py := 499019/100000000, vy := -(981/100000), airborne := true, travelDist := 1/10000 }, closestDistSq := 1/10000 } := by
  norm_num [integratePhase, airborneCheck, groundLevelFor, heightGridOf,
    getTerrainHeight, rollStep, getTerrainNormal, trueRollAccel, stimpToMu,
    minBallYFor, floorCheck, closestSqFor, oW, pW, ballC2w, ballW, GRAVITY,
    BALL_RADIUS_M, HOLE_RADIUS_M, LANDING_THRESHOLD, SPIN_EFFECT_STRENGTH,
    SPIN_DECAY_RATE, BOUNCE_FRICTION, BOUNCE_DAMPING, MIN_BOUNCE_VEL,
    ROLLING_FACTOR, Mid.mk.injEq, Ball.mk.injEq]

set_option maxHeartbeats 1000000 in
theorem c4run : integratePhase pW oW (1/1000) ballC4 =
    { ball := { ballC4 with px := 2000019/2000000, vx := 19/2000, travelDist := 19/2000000 }, closestDistSq := 1 } := by
  norm_num [integratePhase, airborneCheck, groundLevelFor, heightGridOf,
    getTerrainHeight, rollStep, getTerrainNormal, trueRollAccel, stimpToMu,
    minBallYFor, floorCheck, closestSqFor, oW, pW, ballC4, ballW, GRAVITY,
    BALL_RADIUS_M, HOLE_RADIUS_M, LANDING_THRESHOLD, SPIN_EFFECT_STRENGTH,
    SPIN_DECAY_RATE, BOUNCE_FRICTION, BOUNCE_DAMPING, MIN_BOUNCE_VEL,
    ROLLING_FACTOR, Mid.mk.injEq, Ball.mk.injEq]

/-- C2 counterexample: a grounded ball at (-0.1, 0) with velocity 2 m/s on
flat terrain crosses the hole in one 0.1 s step and ends beyond it at
x = 0.095 with speed 1.95: the step reaches the hole (segment closest
approach 0), capture fails (too fast), yet the code applies no 0.92
scaling because the ball's post-step distance exceeds the hole radius -
the claimed lip-out sentence is false on this step. -/
theorem c2_counterexample : ¬ c2LipOutClaim pW oW (1/10) ballC2 := by
  intro hcl
  have hr : holeReach (integratePhase pW oW (1/10) ballC2) := by
    refine Or.inr (Or.inr ⟨?_, ?_⟩)
    · rw [c2run]
      norm_num [HOLE_RADIUS_M, BALL_RADIUS_M]
    · rw [c2run]
      rfl
  have hnc : ¬ captureCond (integratePhase pW oW (1/10) ballC2) := by
    intro hcap
    rcases hcap with ⟨_, hd2⟩ | ⟨_, hsp⟩
    · rw [c2run] at hd2
      norm_num [ballC2, ballW, BALL_RADIUS_M] at hd2
    · rw [c2run] at hsp
      norm_num [ballC2, ballW] at hsp
  have hnin : ¬ ((integratePhase pW oW (1/10) ballC2).ball.px ^ 2 +
      (integratePhase pW oW (1/10) ballC2).ball.pz ^ 2 ≤ HOLE_RADIUS_M ^ 2) := by
    rw [c2run]
    norm_num [ballC2, ballW, HOLE_RADIUS_M, BALL_RADIUS_M]
  have hup : updatePhysics pW oW (1/10) ballC2 =
      holePhase (integratePhase pW oW (1/10) ballC2) := by
    rw [updatePhysics, if_neg]
    norm_num [ballC2, ballW]
  have hpass := holeBlock_pass _ hr hnc hnin
  have hvx : (updatePhysics pW oW (1/10) ballC2).ball.vx =
      (integratePhase pW oW (1/10) ballC2).ball.vx := by
    rw [hup]
    show (breakPhase (holeBlock _).ball).vx = _
    rw [hpass]
    exact (breakPhase_fields _).1
  have h1 := (hcl rfl hr hnc).1
  rw [hvx, c2run] at h1
  norm_num [ballC2, ballW] at h1

/-- C2 witness: a slow ball already inside the cup below the half-radius
height is captured by the amended theorem's capture branch. -/
theorem c2_witness :
    (updatePhysics pW oW (1/1000) ballC2w).ball.moving = false ∧
    (updatePhysics pW oW (1/1000) ballC2w).ball.vx = 0 ∧
    (updatePhysics pW oW (1/1000) ballC2w).ball.py = -(2/5) + BALL_RADIUS_M ∧
    (updatePhysics pW oW (1/1000) ballC2w).ball.inHole = true := by
  have hd : holeDroppedIn (integratePhase pW oW (1/1000) ballC2w) := by
    refine ⟨?_, ?_⟩ <;> rw [c2wrun] <;>
      norm_num [ballC2w, ballW, HOLE_RADIUS_M, BALL_RADIUS_M]
  have h := (c2_holeCapture_amended pW oW (1/1000) ballC2w rfl (Or.inl hd)).1 (Or.inl hd)
  exact ⟨h.1, h.2.1, h.2.2.2.2.1, h.2.2.2.2.2.1⟩

/-- C4 witness: a slow grounded ball far from the hole is stopped by the
stop branch: moving cleared, velocity zeroed, no ghost call. -/
theorem c4_witness :
    (updatePhysics pW oW (1/1000) ballC4).ball.moving = false ∧
    (updatePhysics pW oW (1/1000) ballC4).ball.vx = 0 ∧
    (updatePhysics pW oW (1/1000) ballC4).ball.vz = 0 ∧
    (updatePhysics pW oW (1/1000) ballC4).ghost = none := by
  have hnr : ¬ holeReach (integratePhase pW oW (1/1000) ballC4) := by
    intro hre
    rcases hre with ⟨_, hd2⟩ | hin | ⟨hc1, _⟩
    · rw [c4run] at hd2
      norm_num [ballC4, ballW, BALL_RADIUS_M] at hd2
    · rw [c4run] at hin
      norm_num [ballC4, ballW, HOLE_RADIUS_M, BALL_RADIUS_M] at hin
    · rw [c4run] at hc1
      norm_num [HOLE_RADIUS_M, BALL_RADIUS_M] at hc1
  have hair : (integratePhase pW oW (1/1000) ballC4).ball.airborne = false := by
    rw [c4run]
    rfl
  have hslow : (integratePhase pW oW (1/1000) ballC4).ball.vx ^ 2 +
      (integratePhase pW oW (1/1000) ballC4).ball.vz ^ 2 < (1/50) ^ 2 := by
    rw [c4run]
    norm_num [ballC4, ballW]
  have h := c4_stop_no_chatter.1 pW oW (1/1000) ballC4 rfl hnr hair hslow
  exact ⟨h.1, h.2.1, h.2.2.2.1, h.2.2.2.2.2⟩

/-! ## C7 -/

theorem proj_pair_le (c1 c2 ex ez : ℚ) (hull : List Pt) :
    ∀ q ∈ hull,
      |(q.x - c1) * ex + (q.z - c2) * ez| ≤
        (hull.foldl (fun m r => max m |(r.x - c1) * ex + (r.z - c2) * ez|) 0) * (21/20) := by
  intro q hq
  have h1 := abs_le_foldl_max (fun r => |(r.x - c1) * ex + (r.z - c2) * ez|) hull q 0 hq
  have h0 : 0 ≤ hull.foldl (fun m r => max m |(r.x - c1) * ex + (r.z - c2) * ez|) 0 :=
    le_foldl_step (fun m r => le_max_left m _) hull 0
  nlinarith

theorem beDir_sq_pos (o : MathO) (hull : List Pt) :
    0 < (beDir o hull).1 * (beDir o hull).1 + (beDir o hull).2 * (beDir o hull).2 := by
  rw [beDir]
  split_ifs with h1 h2
  · have hcxz : (beCov hull).2.1 ≠ 0 := by
      intro h0
      rw [h0] at h1
      norm_num at h1
    have hpos := mul_self_pos.mpr hcxz
    simp only []
    nlinarith [mul_self_nonneg (((beCov hull).1 + (beCov hull).2.2) / 2 +
      o.sqrt (((beCov hull).1 - (beCov hull).2.2) / 2 *
        (((beCov hull).1 - (beCov hull).2.2) / 2) +
        (beCov hull).2.1 * (beCov hull).2.1) - (beCov hull).2.2)]
  · norm_num
  · norm_num

/-- C7: for a non-empty hull, provided the oracle returns the exact square
root of the eigenvector's squared length, boundingEllipse yields
nonnegative padded semi-axes, unit-length mutually orthogonal axis
directions, and semi-axes that bound the absolute projection of every hull
point (relative to the centre) onto the corresponding axis. -/
theorem c7_boundingEllipse_sound (o : MathO) (hull : List Pt)
    (hne : hull ≠ [])
    (he : o.sqrt ((beDir o hull).1 * (beDir o hull).1 +
            (beDir o hull).2 * (beDir o hull).2) ^ 2 =
          (beDir o hull).1 * (beDir o hull).1 + (beDir o hull).2 * (beDir o hull).2) :
    0 ≤ (boundingEllipse o hull).a ∧ 0 ≤ (boundingEllipse o hull).b ∧
    (boundingEllipse o hull).ex ^ 2 + (boundingEllipse o hull).ez ^ 2 = 1 ∧
    (boundingEllipse o hull).fx ^ 2 + (boundingEllipse o hull).fz ^ 2 = 1 ∧
    (boundingEllipse o hull).ex * (boundingEllipse o hull).fx +
      (boundingEllipse o hull).ez * (boundingEllipse o hull).fz = 0 ∧
    (∀ q ∈ hull,
      |(q.x - (boundingEllipse o hull).cx) * (boundingEllipse o hull).ex +
        (q.z - (boundingEllipse o hull).cz) * (boundingEllipse o hull).ez| ≤
          (boundingEllipse o hull).a ∧
      |(q.x - (boundingEllipse o hull).cx) * (boundingEllipse o hull).fx +
        (q.z - (boundingEllipse o hull).cz) * (boundingEllipse o hull).fz| ≤
          (boundingEllipse o hull).b) := by
  have hq2 := beDir_sq_pos o hull
  have helen2 : beElen o hull ^ 2 =
      (beDir o hull).1 * (beDir o hull).1 + (beDir o hull).2 * (beDir o hull).2 := he
  have helen_ne : beElen o hull ≠ 0 := by
    intro h0
    rw [h0] at helen2
    nlinarith
  have hunit : beEx o hull ^ 2 + beEz o hull ^ 2 = 1 := by
    rw [beEx, beEz]
    have hq : ((beDir o hull).1 / beElen o hull) ^ 2 +
        ((beDir o hull).2 / beElen o hull) ^ 2 =
        ((beDir o hull).1 * (beDir o hull).1 + (beDir o hull).2 * (beDir o hull).2) /
          beElen o hull ^ 2 := by
      field_simp
      ring
    rw [hq, ← helen2]
    exact div_self (pow_ne_zero 2 helen_ne)
  have hfoldA : 0 ≤ beMaxA o hull := by
    rw [beMaxA]
    exact le_foldl_step (fun m q => le_max_left m _) hull 0
  have hfoldB : 0 ≤ beMaxB o hull := by
    rw [beMaxB]
    exact le_foldl_step (fun m q => le_max_left m _) hull 0
  show 0 ≤ beMaxA o hull * (21/20) ∧ 0 ≤ beMaxB o hull * (21/20) ∧
    beEx o hull ^ 2 + beEz o hull ^ 2 = 1 ∧
    (-beEz o hull) ^ 2 + beEx o hull ^ 2 = 1 ∧
    beEx o hull * -beEz o hull + beEz o hull * beEx o hull = 0 ∧
    (∀ q ∈ hull,
      |(q.x - (beCenter hull).1) * beEx o hull + (q.z - (beCenter hull).2) * beEz o hull| ≤
        beMaxA o hull * (21/20) ∧
      |(q.x - (beCenter hull).1) * (-beEz o hull) + (q.z - (beCenter hull).2) * beEx o hull| ≤
        beMaxB o hull * (21/20))
  refine ⟨by nlinarith, by nlinarith, hunit, by nlinarith [hunit], by ring, ?_⟩
  exact fun q hq => ⟨proj_pair_le _ _ _ _ hull q hq, proj_pair_le _ _ _ _ hull q hq⟩

/-- C7 witness: the axis-aligned square hull with the oracle exact at 1. -/
theorem c7_witness :
    0 ≤ (boundingEllipse o7 hull4).a ∧
    (boundingEllipse o7 hull4).ex ^ 2 + (boundingEllipse o7 hull4).ez ^ 2 = 1 := by
  have hd : beDir o7 hull4 = (1, 0) := by
    norm_num [beDir, beCov, beCenter, hull4, o7]
  have he : o7.sqrt ((beDir o7 hull4).1 * (beDir o7 hull4).1 +
      (beDir o7 hull4).2 * (beDir o7 hull4).2) ^ 2 =
      (beDir o7 hull4).1 * (beDir o7 hull4).1 + (beDir o7 hull4).2 * (beDir o7 hull4).2 := by
    rw [hd]
    norm_num [o7]
  have h := c7_boundingEllipse_sound o7 hull4 (by simp [hull4]) he
  exact ⟨h.1, h.2.2.1⟩

/-! ### Convex hull: order and algebra groundwork -/

theorem ptLt_trans {a b c : Pt} (h1 : ptLt a b) (h2 : ptLt b c) : ptLt a c := by
  rcases h1 with h1 | ⟨e1, z1⟩ <;> rcases h2 with h2 | ⟨e2, z2⟩
  · exact Or.inl (h1.trans h2)
  · exact Or.inl (e2 ▸ h1)
  · exact Or.inl (e1 ▸ h2)
  · exact Or.inr ⟨e1.trans e2, z1.trans z2⟩

theorem ptLt_irrefl (a : Pt) : ¬ ptLt a a := by
  rintro (h | ⟨_, h⟩) <;> exact lt_irrefl _ h

theorem ptLt_ne {a b : Pt} (h : ptLt a b) : a ≠ b := by
  rintro rfl; exact ptLt_irrefl a h

theorem ptLt_x_le {a b : Pt} (h : ptLt a b) : a.x ≤ b.x := by
  rcases h with h | ⟨e, _⟩
  · exact le_of_lt h
  · exact le_of_eq e

theorem ptLt_of_ptLe_ne {a b : Pt} (h : ptLe a b) (hne : a ≠ b) : ptLt a b := by
  rcases h with h | ⟨e, z⟩
  · exact Or.inl h
  · refine Or.inr ⟨e, lt_of_le_of_ne z fun hz => hne ?_⟩
    cases a; cases b; simp only [Pt.mk.injEq]; exact ⟨e, hz⟩

theorem ptLe_of_ptLt {a b : Pt} (h : ptLt a b) : ptLe a b := by
  rcases h with h | ⟨e, z⟩
  · exact Or.inl h
  · exact Or.inr ⟨e, le_of_lt z⟩

instance : IsTotal Pt ptLe where
  total a b := by
    rcases lt_trichotomy a.x b.x with h | h | h
    · exact Or.inl (Or.inl h)
    · rcases le_total a.z b.z with hz | hz
      · exact Or.inl (Or.inr ⟨h, hz⟩)
      · exact Or.inr (Or.inr ⟨h.symm, hz⟩)
    · exact Or.inr (Or.inl h)

instance : IsTrans Pt ptLe where
  trans a b c h1 h2 := by
    rcases h1 with h1 | ⟨e1, z1⟩ <;> rcases h2 with h2 | ⟨e2, z2⟩
    · exact Or.inl (h1.trans h2)
    · exact Or.inl (e2 ▸ h1)
    · exact Or.inl (e1 ▸ h2)
    · exact Or.inr ⟨e1.trans e2, z1.trans z2⟩

instance : IsTrans Pt ptLt where
  trans _ _ _ h1 h2 := ptLt_trans h1 h2

theorem ptLt_negP {a b : Pt} : ptLt (negP a) (negP b) ↔ ptLt b a := by
  simp only [ptLt, negP]
  constructor
  · rintro (h | ⟨e, z⟩)
    · exact Or.inl (by linarith)
    · exact Or.inr ⟨by linarith, by linarith⟩
  · rintro (h | ⟨e, z⟩)
    · exact Or.inl (by linarith)
    · exact Or.inr ⟨by linarith, by linarith⟩

theorem negP_negP (a : Pt) : negP (negP a) = a := by
  cases a; simp [negP]

theorem cross_negP (a b c : Pt) : cross (negP a) (negP b) (negP c) = cross a b c := by
  simp only [cross, negP]; ring

theorem cross_cyc (o a b : Pt) : cross o a b = cross a b o := by
  simp only [cross]; ring

theorem cross_swap (o a b : Pt) : cross o a b = - cross o b a := by
  simp only [cross]; ring

theorem cross_self_right (o a : Pt) : cross o a o = 0 := by
  simp only [cross]; ring

theorem cross_base (a b q : Pt) :
    cross a b q = (b.x - a.x) * (q.z - b.z) - (b.z - a.z) * (q.x - b.x) := by
  simp only [cross]; ring

theorem crossId (o a b c : Pt) :
    cross o a b * (c.x - o.x) + cross o b c * (a.x - o.x) + cross o c a * (b.x - o.x) = 0 := by
  simp only [cross]; ring

/-! ### Infix helpers for chains -/

theorem pair_infix_cons {x y c : Pt} {l : List Pt} (h : [x, y] <:+: c :: l) :
    (c = x ∧ l.head? = some y) ∨ [x, y] <:+: l := by
  rcases List.infix_cons_iff.1 h with hpre | hinf
  · rcases List.cons_prefix_cons.1 hpre with ⟨hx, h2⟩
    left
    refine ⟨hx.symm, ?_⟩
    cases l with
    | nil => exact absurd h2 (by simp)
    | cons d t =>
      rcases List.cons_prefix_cons.1 h2 with ⟨hy, _⟩
      simp [hy]
  · exact Or.inr hinf

theorem triple_infix_cons {x y z c : Pt} {l : List Pt} (h : [x, y, z] <:+: c :: l) :
    (c = x ∧ [y, z] <+: l) ∨ [x, y, z] <:+: l := by
  rcases List.infix_cons_iff.1 h with hpre | hinf
  · rcases List.cons_prefix_cons.1 hpre with ⟨hx, h2⟩
    exact Or.inl ⟨hx.symm, h2⟩
  · exact Or.inr hinf

theorem pair_infix_head2 {x y : Pt} (l : List Pt) : [x, y] <:+: x :: y :: l :=
  List.IsPrefix.isInfix ⟨l, rfl⟩

theorem triple_infix_head3 {x y z : Pt} (l : List Pt) : [x, y, z] <:+: x :: y :: z :: l :=
  List.IsPrefix.isInfix ⟨l, rfl⟩

theorem infix_cons_lift {l₁ l₂ : List Pt} {c : Pt} (h : l₁ <:+: l₂) : l₁ <:+: c :: l₂ :=
  h.trans (List.suffix_cons c l₂).isInfix

theorem head?_of_pair_prefix {y z : Pt} {l : List Pt} (h : [y, z] <+: l) :
    l.head? = some y := by
  cases l with
  | nil => exact absurd h (by simp)
  | cons d t =>
    rcases List.cons_prefix_cons.1 h with ⟨hy, _⟩
    simp [hy]

theorem getLast?_of_pair_suffix {x y : Pt} {l : List Pt} (h : [x, y] <:+ l) :
    l.getLast? = some y := by
  obtain ⟨t, ht⟩ := h
  subst ht
  simp

theorem pair_suffix_snoc {x y w : Pt} {X : List Pt} (h : [x, y] <:+ X) :
    [x, y, w] <:+ X ++ [w] := by
  obtain ⟨t, ht⟩ := h
  exact ⟨t, by rw [← ht]; simp⟩

theorem getLast?_cons_of_ne_nil {c : Pt} {X : List Pt} (h : X ≠ []) :
    (c :: X).getLast? = X.getLast? := by
  cases X with
  | nil => exact absurd rfl h
  | cons d t => exact List.getLast?_cons_cons

theorem pair_infix_append {x y : Pt} {X Y : List Pt} (h : [x, y] <:+: X ++ Y) :
    [x, y] <:+: X ∨ [x, y] <:+: Y ∨ (X.getLast? = some x ∧ Y.head? = some y) := by
  induction X with
  | nil => exact Or.inr (Or.inl (by simpa using h))
  | cons c X ih =>
    rcases pair_infix_cons (by simpa using h) with ⟨hc, hh⟩ | htail
    · subst hc
      cases X with
      | nil => exact Or.inr (Or.inr ⟨by simp, by simpa using hh⟩)
      | cons d X' =>
        have hd : d = y := by simpa using hh
        subst hd
        exact Or.inl (pair_infix_head2 X')
    · rcases ih htail with h1 | h2 | ⟨h3, h4⟩
      · exact Or.inl (infix_cons_lift h1)
      · exact Or.inr (Or.inl h2)
      · refine Or.inr (Or.inr ⟨?_, h4⟩)
        rw [getLast?_cons_of_ne_nil (by rintro rfl; simp at h3)]
        exact h3

theorem triple_infix_append {x y z : Pt} {X Y : List Pt} (h : [x, y, z] <:+: X ++ Y) :
    [x, y, z] <:+: X ∨ [x, y, z] <:+: Y ∨
    ([x, y] <:+ X ∧ Y.head? = some z) ∨ (X.getLast? = some x ∧ [y, z] <+: Y) := by
  induction X with
  | nil => exact Or.inr (Or.inl (by simpa using h))
  | cons c X ih =>
    rcases triple_infix_cons (by simpa using h) with ⟨hc, hyz⟩ | htail
    · subst hc
      cases X with
      | nil => exact Or.inr (Or.inr (Or.inr ⟨by simp, by simpa using hyz⟩))
      | cons d X' =>
        rcases List.cons_prefix_cons.1 hyz with ⟨hy, hz⟩
        subst hy
        cases X' with
        | nil =>
          refine Or.inr (Or.inr (Or.inl ⟨List.suffix_rfl, ?_⟩))
          cases Y with
          | nil => exact absurd hz (by simp)
          | cons e t =>
            have he : z = e := by simpa using hz
            simp [he]
        | cons e X'' =>
          have he : e = z := by
            have hz' : z = e := by simpa using hz
            exact hz'.symm
          subst he
          exact Or.inl (triple_infix_head3 X'')
    · rcases ih htail with h1 | h2 | ⟨h3, h4⟩ | ⟨h5, h6⟩
      · exact Or.inl (infix_cons_lift h1)
      · exact Or.inr (Or.inl h2)
      · exact Or.inr (Or.inr (Or.inl ⟨h3.trans (List.suffix_cons c X), h4⟩))
      · refine Or.inr (Or.inr (Or.inr ⟨?_, h6⟩))
        rw [getLast?_cons_of_ne_nil (by rintro rfl; simp at h5)]
        exact h5

/-! ### Structural lemmas about the pop loop -/

theorem popWhile_nil (p : Pt) : popWhile p [] = [] := rfl

theorem popWhile_single (p c : Pt) : popWhile p [c] = [c] := rfl

theorem popWhile_cons2 (p c d : Pt) (rest : List Pt) :
    popWhile p (c :: d :: rest) =
      if cross d c p ≤ 0 then popWhile p (d :: rest) else c :: d :: rest := rfl

theorem popWhile_suffix (p : Pt) : ∀ acc : List Pt, popWhile p acc <:+ acc := by
  intro acc
  induction acc with
  | nil => exact List.suffix_rfl
  | cons c acc ih =>
    cases acc with
    | nil => exact List.suffix_rfl
    | cons d rest =>
      rw [popWhile_cons2]
      by_cases hc : cross d c p ≤ 0
      · rw [if_pos hc]; exact ih.trans (List.suffix_cons c _)
      · rw [if_neg hc]

theorem popWhile_ne_nil (p : Pt) : ∀ acc : List Pt, acc ≠ [] → popWhile p acc ≠ [] := by
  intro acc
  induction acc with
  | nil => intro h; exact absurd rfl h
  | cons c acc ih =>
    intro _
    cases acc with
    | nil => rw [popWhile_single]; simp
    | cons d rest =>
      rw [popWhile_cons2]
      by_cases hc : cross d c p ≤ 0
      · rw [if_pos hc]; exact ih (by simp)
      · rw [if_neg hc]; simp

theorem popWhile_getLast? (p : Pt) :
    ∀ acc : List Pt, (popWhile p acc).getLast? = acc.getLast? := by
  intro acc
  induction acc with
  | nil => rfl
  | cons c acc ih =>
    cases acc with
    | nil => rfl
    | cons d rest =>
      rw [popWhile_cons2]
      by_cases hc : cross d c p ≤ 0
      · rw [if_pos hc, ih, List.getLast?_cons_cons]
      · rw [if_neg hc]

theorem popWhile_stop (p : Pt) :
    ∀ (acc : List Pt) (b a : Pt) (t : List Pt),
      popWhile p acc = b :: a :: t → 0 < cross a b p := by
  intro acc
  induction acc with
  | nil => intro b a t h; rw [popWhile_nil] at h; exact absurd h (by simp)
  | cons c acc ih =>
    intro b a t h
    cases acc with
    | nil => rw [popWhile_single] at h; exact absurd h (by simp)
    | cons d rest =>
      rw [popWhile_cons2] at h
      by_cases hc : cross d c p ≤ 0
      · rw [if_pos hc] at h; exact ih b a t h
      · rw [if_neg hc] at h
        obtain ⟨rfl, rfl, rfl⟩ : c = b ∧ d = a ∧ rest = t := by simpa using h
        exact lt_of_not_le hc

theorem popWhile_cases (p : Pt) :
    ∀ acc : List Pt, popWhile p acc = acc ∨ popWhile p acc <:+ acc.tail := by
  intro acc
  cases acc with
  | nil => exact Or.inl rfl
  | cons c acc =>
    cases acc with
    | nil => exact Or.inl rfl
    | cons d rest =>
      rw [popWhile_cons2]
      by_cases hc : cross d c p ≤ 0
      · rw [if_pos hc]; exact Or.inr (popWhile_suffix p (d :: rest))
      · rw [if_neg hc]; exact Or.inl rfl

/-! ### Sign bookkeeping for vertical and level edges -/

theorem cross_swap01 (o a b : Pt) : cross o a b = - cross a o b := by
  simp only [cross]; ring

theorem vert_support_absurd {d c q : Pt} (hx : d.x = c.x) (hz : d.z < c.z)
    (hsup : 0 ≤ cross d c q) : q.x ≤ d.x := by
  by_contra hq
  push_neg at hq
  simp only [cross] at hsup
  rw [← hx] at hsup
  nlinarith [mul_pos (sub_pos.2 hz) (sub_pos.2 hq)]

theorem vert_cross_nonpos {d c p : Pt} (hx : d.x = c.x) (hz : d.z < c.z) (hp : d.x ≤ p.x) :
    cross d c p ≤ 0 := by
  simp only [cross]
  rw [← hx]
  nlinarith [mul_nonneg (le_of_lt (sub_pos.2 hz)) (sub_nonneg.2 hp)]

theorem level_cross_nonneg {c p q : Pt} (hx : q.x = c.x) (hz : c.z ≤ q.z) (hp : c.x ≤ p.x) :
    0 ≤ cross c p q := by
  simp only [cross]
  rw [hx]
  nlinarith [mul_nonneg (sub_nonneg.2 hp) (sub_nonneg.2 hz)]

/-! ### The descent lemma: a new point past the chain top that is weakly
left of the top edge is weakly left of every chain edge. -/

theorem descent (p : Pt) :
    ∀ l : List Pt,
      (∀ x y z, [z, y, x] <:+: l → 0 < cross x y z) →
      (∀ x y, [y, x] <:+: l.drop 1 → x.x < y.x) →
      (∀ v ∈ l, v.x ≤ p.x) →
      (∀ b a t, l = b :: a :: t → 0 ≤ cross a b p ∧ a.x < b.x) →
      ∀ x y, [y, x] <:+: l → 0 ≤ cross x y p := by
  intro l
  induction l with
  | nil =>
    intro _ _ _ _ x y hxy
    have := hxy.length_le; simp at this
  | cons b l ih =>
    cases l with
    | nil =>
      intro _ _ _ _ x y hxy
      have := hxy.length_le; simp at this
    | cons a t =>
      intro hconv hsx hxle htop x y hxy
      obtain ⟨h1, h2⟩ := htop b a t rfl
      rcases pair_infix_cons hxy with ⟨hb, hh⟩ | htail
      · have hx : a = x := by simpa using hh
        subst hb; subst hx
        exact h1
      · refine ih ?_ ?_ ?_ ?_ x y htail
        · intro x' y' z' h'; exact hconv x' y' z' (infix_cons_lift h')
        · intro x' y' h'
          exact hsx x' y' (infix_cons_lift h')
        · intro v hv; exact hxle v (List.mem_cons_of_mem b hv)
        · intro b' a' t' heq
          injection heq with hb' ht'
          subst hb'; subst ht'
          have hstrict : a'.x < a.x := hsx a' a (pair_infix_head2 t')
          refine ⟨?_, hstrict⟩
          have hconv3 : 0 < cross a' a b := hconv a' a b (triple_infix_head3 t')
          have key := crossId a a' p b
          rw [cross_swap01 a a' p, cross_swap a p b, ← cross_cyc a' a b] at key
          have hpx : a.x ≤ p.x := hxle a (by simp)
          have t1 : 0 ≤ cross a' a b * (p.x - a.x) :=
            mul_nonneg (le_of_lt hconv3) (by linarith)
          have t2 : 0 ≤ cross a b p * (a.x - a'.x) :=
            mul_nonneg h1 (by linarith)
          have t3 : 0 ≤ cross a' a p * (b.x - a.x) := by linarith
          exact le_of_mul_le_mul_right (by linarith) (by linarith : (0:ℚ) < b.x - a.x)

/-! ### The new edge out of the popped stack supports every processed point. -/

theorem popWhile_new_edge (p : Pt) (done : List Pt) :
    ∀ acc : List Pt,
      (∀ x y, [y, x] <:+: acc → ∀ q ∈ done, 0 ≤ cross x y q) →
      List.Chain' (fun a b => ptLt b a) acc →
      (∀ v ∈ acc, ptLt v p) →
      (∀ q ∈ done, ∀ lst, acc.getLast? = some lst → ptLe lst q) →
      (∀ q ∈ done, ∀ hd, acc.head? = some hd → hd.x < q.x → 0 ≤ cross hd p q) →
      ∀ b t, popWhile p acc = b :: t → ∀ q ∈ done, 0 ≤ cross b p q := by
  intro acc
  induction acc with
  | nil =>
    intro _ _ _ _ _ b t h
    rw [popWhile_nil] at h; exact absurd h (by simp)
  | cons c acc ih =>
    intro hsup hch hlt hbot hcov b t h
    cases acc with
    | nil =>
      rw [popWhile_single] at h
      obtain ⟨rfl, rfl⟩ : c = b ∧ ([] : List Pt) = t := by simpa using h
      intro q hq
      rcases lt_or_le c.x q.x with hx | hx
      · exact hcov q hq c (by simp) hx
      · have hle : ptLe c q := hbot q hq c (by simp)
        have hcp : ptLt c p := hlt c (by simp)
        rcases hle with hlt' | ⟨he, hz⟩
        · exact absurd hlt' (not_lt.2 hx)
        · exact level_cross_nonneg he.symm hz (ptLt_x_le hcp)
    | cons d rest =>
      rw [popWhile_cons2] at h
      have hdc : ptLt d c := (List.chain'_cons.1 hch).1
      have hdtop : [c, d] <:+: c :: d :: rest := pair_infix_head2 rest
      have hpx : d.x ≤ p.x := ptLt_x_le (hlt d (by simp))
      have hcx : c.x ≤ p.x := ptLt_x_le (hlt c (by simp))
      by_cases hc : cross d c p ≤ 0
      · rw [if_pos hc] at h
        refine ih ?_ (hch.tail) ?_ ?_ ?_ b t h
        · intro x y h' q hq; exact hsup x y (infix_cons_lift h') q hq
        · intro v hv; exact hlt v (List.mem_cons_of_mem c hv)
        · intro q hq lst hlst
          exact hbot q hq lst (by rw [List.getLast?_cons_cons]; exact hlst)
        · intro q hq hd hhd hdq
          have hd' : d = hd := by simpa using hhd
          subst hd'
          have hsupq : 0 ≤ cross d c q := hsup d c hdtop q hq
          rcases lt_or_eq_of_le (ptLt_x_le hdc) with hxlt | hxeq
          · have key := crossId d c p q
            rw [cross_swap d q c] at key
            have t1 : 0 ≤ (- cross d c p) * (q.x - d.x) :=
              mul_nonneg (by linarith) (by linarith)
            have t2 : 0 ≤ cross d c q * (p.x - d.x) := mul_nonneg hsupq (by linarith)
            have t3 : 0 ≤ cross d p q * (c.x - d.x) := by linarith
            exact le_of_mul_le_mul_right (by linarith) (by linarith : (0:ℚ) < c.x - d.x)
          · have hz : d.z < c.z := by
              rcases hdc with h' | ⟨_, h'⟩
              · exact absurd h' (by rw [hxeq]; exact lt_irrefl _)
              · exact h'
            have := vert_support_absurd hxeq hz hsupq
            linarith
      · rw [if_neg hc] at h
        obtain ⟨rfl, rfl⟩ : c = b ∧ d :: rest = t := by simpa using h
        intro q hq
        rcases lt_or_le c.x q.x with hx | hx
        · exact hcov q hq c (by simp) hx
        · push_neg at hc
          have hxlt : d.x < c.x := by
            rcases lt_or_eq_of_le (ptLt_x_le hdc) with h' | h'
            · exact h'
            · have hz : d.z < c.z := by
                rcases hdc with h'' | ⟨_, h''⟩
                · exact absurd h'' (by rw [h']; exact lt_irrefl _)
                · exact h''
              have := vert_cross_nonpos h' hz (by linarith : d.x ≤ p.x)
              linarith
          have hsupq : 0 ≤ cross d c q := hsup d c hdtop q hq
          have key := crossId c d p q
          rw [cross_swap01 c d p] at key
          rw [show cross c q d = cross d c q from
            (cross_cyc c q d).trans (cross_cyc q d c)] at key
          have t1 : 0 ≤ cross d c p * (c.x - q.x) :=
            mul_nonneg (le_of_lt hc) (by linarith)
          have t2 : 0 ≤ cross d c q * (p.x - c.x) := mul_nonneg hsupq (by linarith)
          have t3 : 0 ≤ cross c p q * (c.x - d.x) := by linarith
          exact le_of_mul_le_mul_right (by linarith) (by linarith : (0:ℚ) < c.x - d.x)

/-! ### Order bookkeeping for sorted prefixes -/

theorem cross_self2 (o a : Pt) : cross o a a = 0 := by
  simp only [cross]; ring

theorem ptLe_refl (a : Pt) : ptLe a a := Or.inr ⟨rfl, le_refl _⟩

theorem head_ptLe_of_mem {l : List Pt} (hp : List.Pairwise ptLt l) {h : Pt}
    (hh : l.head? = some h) : ∀ q ∈ l, ptLe h q := by
  intro q hq
  cases l with
  | nil => exact absurd hh (by simp)
  | cons a t =>
    have ha : a = h := by simpa using hh
    subst ha
    rcases List.mem_cons.1 hq with rfl | hq'
    · exact ptLe_refl q
    · exact ptLe_of_ptLt ((List.pairwise_cons.1 hp).1 q hq')

theorem mem_ptLe_getLast :
    ∀ {l : List Pt}, List.Pairwise ptLt l → ∀ {h : Pt}, l.getLast? = some h →
      ∀ q ∈ l, ptLe q h := by
  intro l
  induction l with
  | nil => intro _ h hh; exact absurd hh (by simp)
  | cons a t ih =>
    intro hp h hh q hq
    cases t with
    | nil =>
      have h1 : a = h := by simpa using hh
      subst h1
      have h2 : q = a := by simpa using hq
      subst h2; exact ptLe_refl q
    | cons b t' =>
      rw [List.getLast?_cons_cons] at hh
      rcases List.mem_cons.1 hq with rfl | hq'
      · exact ptLe_of_ptLt
          ((List.pairwise_cons.1 hp).1 h (List.mem_of_getLast?_eq_some hh))
      · exact ih (List.pairwise_cons.1 hp).2 hh q hq'

/-- The stop edge of the pop loop supports `p` and strictly increases in x
(a vertical stop edge would contradict the strict-left-turn stop test). -/
theorem popWhile_top_strict (p : Pt) (acc : List Pt)
    (hch : List.Chain' (fun a b => ptLt b a) acc)
    (hlt : ∀ v ∈ acc, ptLt v p) :
    ∀ b a t, popWhile p acc = b :: a :: t → 0 ≤ cross a b p ∧ a.x < b.x := by
  intro b a t h
  have hpos := popWhile_stop p acc b a t h
  have hsuff : b :: a :: t <:+ acc := h ▸ popWhile_suffix p acc
  have hab : ptLt a b := (List.chain'_cons.1 (hch.suffix hsuff)).1
  have hbp : b.x ≤ p.x := ptLt_x_le (hlt b (hsuff.subset (by simp)))
  refine ⟨le_of_lt hpos, ?_⟩
  rcases lt_or_eq_of_le (ptLt_x_le hab) with h' | h'
  · exact h'
  · have hz : a.z < b.z := by
      rcases hab with h'' | ⟨_, h''⟩
      · exact absurd h'' (by rw [h']; exact lt_irrefl _)
      · exact h''
    have := vert_cross_nonpos h' hz (by linarith : a.x ≤ p.x)
    linarith

/-! ### The chain invariant is preserved by one step of the builder. -/

theorem chainStep {done acc : List Pt} {p : Pt}
    (hinv : Inv done acc)
    (hpdone : List.Pairwise ptLt done)
    (hall : ∀ q ∈ done, ptLt q p) :
    Inv (done ++ [p]) (p :: popWhile p acc) := by
  obtain ⟨hne, hhead, hlast, hmem, hch, hconv, hsup, hsx⟩ := hinv
  have hres_suffix : popWhile p acc <:+ acc := popWhile_suffix p acc
  have hres_ne : popWhile p acc ≠ [] := popWhile_ne_nil p acc hne
  have hlt_all : ∀ v ∈ acc, ptLt v p := fun v hv => hall v (hmem v hv)
  have hdone_ne : done ≠ [] := by
    intro hd
    subst hd
    cases acc with
    | nil => exact hne rfl
    | cons a t => simp at hlast
  have htopstrict := popWhile_top_strict p acc hch hlt_all
  have hmem_res : ∀ v ∈ popWhile p acc, v ∈ acc := fun v hv => hres_suffix.subset hv
  have hdesc : ∀ x y, [y, x] <:+: popWhile p acc → 0 ≤ cross x y p := by
    refine descent p (popWhile p acc) ?_ ?_ ?_ ?_
    · intro x y z h'; exact hconv x y z (h'.trans hres_suffix.isInfix)
    · intro x y h'
      rcases popWhile_cases p acc with hc | hc
      · rw [hc] at h'; exact hsx x y h'
      · refine hsx x y ?_
        rw [List.drop_one]
        exact (h'.trans (List.drop_suffix 1 _).isInfix).trans hc.isInfix
    · intro v hv; exact ptLt_x_le (hlt_all v (hmem_res v hv))
    · exact htopstrict
  refine ⟨by simp, by simp, ?_, ?_, ?_, ?_, ?_, ?_⟩
  · rw [getLast?_cons_of_ne_nil hres_ne, popWhile_getLast? p acc, hlast,
        List.head?_append_of_ne_nil done hdone_ne]
  · intro v hv
    rcases List.mem_cons.1 hv with rfl | hv'
    · simp
    · exact List.mem_append_left _ (hmem v (hmem_res v hv'))
  · refine List.chain'_cons'.2 ⟨?_, hch.suffix hres_suffix⟩
    intro y hy
    exact hlt_all y (hmem_res y (List.mem_of_mem_head? hy))
  · intro x y z h'
    rcases triple_infix_cons h' with ⟨hz, hyx⟩ | h''
    · subst hz
      obtain ⟨t', ht'⟩ := hyx
      exact popWhile_stop p acc y x t' ht'.symm
    · exact hconv x y z (h''.trans hres_suffix.isInfix)
  · intro x y h' q hq
    rcases List.mem_append.1 hq with hq' | hq'
    · rcases pair_infix_cons h' with ⟨hy, hh'⟩ | h''
      · subst hy
        cases hres : popWhile p acc with
        | nil => exact absurd hres hres_ne
        | cons r0 rt =>
          have hx : r0 = x := by rw [hres] at hh'; simpa using hh'
          subst hx
          refine popWhile_new_edge p done acc
            (fun x' y' h'' q' hq'' => hsup x' y' h'' q' hq'') hch hlt_all
            ?_ ?_ r0 rt hres q hq'
          · intro q' hq'' lst hlst
            rw [hlast] at hlst
            exact head_ptLe_of_mem hpdone hlst q' hq''
          · intro q' hq'' hd hhd hdx
            rw [hhead] at hhd
            have hle := mem_ptLe_getLast hpdone hhd q' hq''
            have : q'.x ≤ hd.x := by
              rcases hle with h'' | ⟨h'', _⟩
              · exact le_of_lt h''
              · exact le_of_eq h''
            linarith
      · exact hsup x y (h''.trans hres_suffix.isInfix) q hq'
    · have hq'' : q = p := by simpa using hq'
      subst hq''
      rcases pair_infix_cons h' with ⟨hy, _⟩ | h''
      · subst hy
        exact le_of_eq (cross_self2 x q).symm
      · exact hdesc x y h''
  · intro x y h'
    have h'' : [y, x] <:+: popWhile p acc := by simpa using h'
    rcases popWhile_cases p acc with hc | hc
    · rw [hc] at h''
      cases acc with
      | nil => exact absurd rfl hne
      | cons a0 acc' =>
        rcases pair_infix_cons h'' with ⟨ha0, hh''⟩ | hdeep
        · subst ha0
          cases acc' with
          | nil => exact absurd hh'' (by simp)
          | cons a1 t'' =>
            have ha1 : a1 = x := by simpa using hh''
            subst ha1
            exact (htopstrict a0 a1 t'' (by rw [hc])).2
        · exact hsx x y hdeep
    · refine hsx x y ?_
      rw [List.drop_one]
      exact h''.trans hc.isInfix

/-- The invariant holds after the first point. -/
theorem chainBase (p : Pt) : Inv [p] [p] := by
  refine ⟨by simp, by simp, by simp, by simp, by simp, ?_, ?_, ?_⟩
  · intro x y z h; have := h.length_le; simp at this
  · intro x y h q hq
    have := h.length_le; simp at this
  · intro x y h; have := h.length_le; simp at this

/-- Folding the remaining points through the builder preserves the invariant. -/
theorem chainFold :
    ∀ (rest done acc : List Pt), done ≠ [] →
      List.Pairwise ptLt (done ++ rest) → Inv done acc →
      Inv (done ++ rest) (rest.foldl (fun a q => q :: popWhile q a) acc) := by
  intro rest
  induction rest with
  | nil => intro done acc _ _ hinv; simpa using hinv
  | cons p rest ih =>
    intro done acc hdne hpw hinv
    have hpdone : List.Pairwise ptLt done :=
      hpw.sublist (List.sublist_append_left done (p :: rest))
    have hall : ∀ q ∈ done, ptLt q p := by
      have hsplit := List.pairwise_append.1 hpw
      exact fun q hq => hsplit.2.2 q hq p (by simp)
    have hstep := chainStep hinv hpdone hall
    have hrec := ih (done ++ [p]) (p :: popWhile p acc) (by simp)
      (by simpa [List.append_assoc] using hpw) hstep
    simp only [List.foldl_cons]
    simpa [List.append_assoc] using hrec

/-- The full chain builder establishes the invariant over the whole input. -/
theorem chain_main (pts : List Pt) (hpw : List.Pairwise ptLt pts) (hne : pts ≠ []) :
    Inv pts (chainRev pts) := by
  cases pts with
  | nil => exact absurd rfl hne
  | cons p0 rest =>
    have h := chainFold rest [p0] [p0] (by simp) (by simpa using hpw) (chainBase p0)
    simpa [chainRev, popWhile_nil] using h

/-! ### Negation duality: the upper chain is the lower chain of the
negated, reversed input. -/

theorem popWhile_map_negP (p : Pt) :
    ∀ acc : List Pt, popWhile (negP p) (acc.map negP) = (popWhile p acc).map negP := by
  intro acc
  induction acc with
  | nil => rfl
  | cons c acc ih =>
    cases acc with
    | nil => rfl
    | cons d rest =>
      simp only [List.map_cons]
      rw [popWhile_cons2, popWhile_cons2, cross_negP]
      by_cases hc : cross d c p ≤ 0
      · rw [if_pos hc, if_pos hc]
        simpa using ih
      · rw [if_neg hc, if_neg hc]
        simp

theorem chainRev_map_negP (pts : List Pt) :
    chainRev (pts.map negP) = (chainRev pts).map negP := by
  suffices h : ∀ (l acc : List Pt),
      (l.map negP).foldl (fun a q => q :: popWhile q a) (acc.map negP) =
        (l.foldl (fun a q => q :: popWhile q a) acc).map negP by
    simpa [chainRev] using h pts []
  intro l
  induction l with
  | nil => intro acc; rfl
  | cons p l ih =>
    intro acc
    simp only [List.map_cons, List.foldl_cons]
    have hstep : (negP p :: popWhile (negP p) (List.map negP acc)) =
        (p :: popWhile p acc).map negP := by
      rw [popWhile_map_negP]; simp
    rw [hstep, ih (p :: popWhile p acc)]

theorem pairwise_ptLt_reverse_map_negP {l : List Pt} (h : List.Pairwise ptLt l) :
    List.Pairwise ptLt (l.reverse.map negP) := by
  rw [List.pairwise_map, List.pairwise_reverse]
  exact h.imp (fun hab => ptLt_negP.2 hab)

theorem infix_map_negP {l₁ l₂ : List Pt} (h : l₁ <:+: l₂.map negP) :
    l₁.map negP <:+: l₂ := by
  have h2 := h.map negP
  rw [List.map_map, show negP ∘ negP = id from funext negP_negP, List.map_id] at h2
  exact h2

/-! ### The chain-order facts delivered by the invariant. -/

theorem chain_facts (pts : List Pt) (hpw : List.Pairwise ptLt pts) (hne : pts ≠ []) :
    (chainRev pts).reverse ≠ [] ∧
    ((chainRev pts).reverse).head? = pts.head? ∧
    ((chainRev pts).reverse).getLast? = pts.getLast? ∧
    (∀ v ∈ (chainRev pts).reverse, v ∈ pts) ∧
    List.Pairwise ptLt ((chainRev pts).reverse) ∧
    (∀ x y z, [x, y, z] <:+: (chainRev pts).reverse → 0 < cross x y z) ∧
    (∀ x y, [x, y] <:+: (chainRev pts).reverse → ∀ q ∈ pts, 0 ≤ cross x y q) := by
  obtain ⟨hne', hhead, hlast, hmem, hch, hconv, hsup, _⟩ := chain_main pts hpw hne
  refine ⟨by simpa using hne', by simpa using hlast, by simpa using hhead,
    fun v hv => hmem v (by simpa using hv), ?_, ?_, ?_⟩
  · have hpairs : List.Pairwise (fun a b => ptLt b a) (chainRev pts) := by
      haveI : IsTrans Pt (fun a b : Pt => ptLt b a) :=
        ⟨fun _ _ _ h1 h2 => ptLt_trans h2 h1⟩
      exact List.chain'_iff_pairwise.1 hch
    rw [List.pairwise_reverse]
    exact hpairs
  · intro x y z h
    exact hconv x y z ((@List.reverse_infix Pt [z, y, x] (chainRev pts)).1 h)
  · intro x y h q hq
    exact hsup x y ((@List.reverse_infix Pt [y, x] (chainRev pts)).1 h) q hq

/-! ### Collinearity and the seam between the two chains -/

theorem pair_chain_rel {R : Pt → Pt → Prop} {l : List Pt} {a b : Pt}
    (hp : List.Pairwise R l) (h : [a, b] <:+: l) : R a b := by
  obtain ⟨s, t, hst⟩ := h
  subst hst
  have h1 : List.Pairwise R [a, b] :=
    (List.pairwise_append.1 (List.pairwise_append.1 hp).1).2.1
  exact (List.pairwise_cons.1 h1).1 b (by simp)

theorem exists_triple_of_len {l : List Pt} (h : 3 ≤ l.length) :
    ∃ x y z t, l = x :: y :: z :: t := by
  cases l with
  | nil => exact absurd h (by simp)
  | cons x l1 =>
    cases l1 with
    | nil => exact absurd h (by simp)
    | cons y l2 =>
      cases l2 with
      | nil => exact absurd h (by simp)
      | cons z t => exact ⟨x, y, z, t, rfl⟩

theorem cross_zero_of_line {a b x y z : Pt} (hne : a ≠ b)
    (hx : cross a b x = 0) (hy : cross a b y = 0) (hz : cross a b z = 0) :
    cross x y z = 0 := by
  by_cases hdx : b.x = a.x
  · have hdz : b.z ≠ a.z := by
      intro h
      exact hne (by cases a; cases b; simp_all)
    have key : ∀ q : Pt, cross a b q = 0 → q.x = a.x := by
      intro q hq
      simp only [cross] at hq
      rw [hdx] at hq
      have h2 : (b.z - a.z) * (q.x - a.x) = 0 := by linarith
      rcases mul_eq_zero.1 h2 with h3 | h3
      · exact absurd (by linarith : b.z = a.z) hdz
      · linarith
    have hxx := key x hx
    have hyy := key y hy
    have hzz := key z hz
    simp only [cross]
    rw [hxx, hyy, hzz]
    ring
  · have hdx' : b.x - a.x ≠ 0 := fun h => hdx (by linarith)
    simp only [cross] at hx hy hz
    have key : (b.x - a.x) ^ 2 * cross x y z = 0 := by
      simp only [cross]
      linear_combination ((z.x - y.x) * (b.x - a.x)) * hx +
        ((x.x - z.x) * (b.x - a.x)) * hy + ((y.x - x.x) * (b.x - a.x)) * hz
    rcases mul_eq_zero.1 key with h' | h'
    · exact absurd ((pow_eq_zero_iff (by norm_num)).1 h') hdx'
    · exact h'

/-- The seam triple joining the end of one chain to the start of the other
makes a strict left turn: equality would force every input point onto one
line, contradicting a strict turn inside whichever chain has three
vertices. -/
theorem seam_strict {P L U : List Pt} {a b c : Pt}
    (hLmem : ∀ v ∈ L, v ∈ P) (hUmem : ∀ v ∈ U, v ∈ P)
    (hsupL : ∀ x y, [x, y] <:+: L → ∀ q ∈ P, 0 ≤ cross x y q)
    (hsupU : ∀ x y, [x, y] <:+: U → ∀ q ∈ P, 0 ≤ cross x y q)
    (hLsort : List.Pairwise ptLt L)
    (hUsort : List.Pairwise (fun x y => ptLt y x) U)
    (hconvL : ∀ x y z, [x, y, z] <:+: L → 0 < cross x y z)
    (hconvU : ∀ x y z, [x, y, z] <:+: U → 0 < cross x y z)
    (hbig : 3 ≤ L.length ∨ 3 ≤ U.length)
    (hab : [a, b] <:+ L) (hbc : [b, c] <+: U) :
    0 < cross a b c := by
  have hcmem : c ∈ P := hUmem c (hbc.subset (by simp))
  have hge : 0 ≤ cross a b c := hsupL a b hab.isInfix c hcmem
  rcases lt_or_eq_of_le hge with h | h
  · exact h
  exfalso
  have hablt : ptLt a b := pair_chain_rel hLsort hab.isInfix
  have hcblt : ptLt c b :=
    @pair_chain_rel (fun x y => ptLt y x) U b c hUsort hbc.isInfix
  have habne : a ≠ b := ptLt_ne hablt
  have hcol : (b.x - a.x) * (c.z - b.z) - (b.z - a.z) * (c.x - b.x) = 0 := by
    have hcb := cross_base a b c
    linarith [hcb]
  have hzero : ∀ q ∈ P, cross a b q = 0 := by
    intro q hq
    have hq1 : 0 ≤ cross a b q := hsupL a b hab.isInfix q hq
    have hq2 : 0 ≤ cross b c q := hsupU b c hbc.isInfix q hq
    rcases lt_or_eq_of_le (ptLt_x_le hablt) with hdx | hdx
    · have hux : c.x - b.x < 0 := by
        rcases lt_or_eq_of_le (ptLt_x_le hcblt) with h' | h'
        · linarith
        · exfalso
          have hux0 : c.x - b.x = 0 := by linarith
          have h2 : (b.x - a.x) * (c.z - b.z) = 0 := by
            linear_combination hcol + (b.z - a.z) * hux0
          have hcz : c.z = b.z := by
            rcases mul_eq_zero.1 h2 with h3 | h3
            · linarith
            · linarith
          exact ptLt_ne hcblt (by cases c; cases b; simp_all)
      have key : (b.x - a.x) * cross b c q = (c.x - b.x) * cross a b q := by
        simp only [cross]
        linear_combination (-(q.x - b.x)) * hcol
      have hle : cross a b q ≤ 0 := by
        by_contra hX
        push_neg at hX
        have h1 : 0 ≤ (b.x - a.x) * cross b c q := mul_nonneg (by linarith) hq2
        have h2 : (c.x - b.x) * cross a b q < 0 := mul_neg_of_neg_of_pos hux hX
        linarith [key]
      exact le_antisymm hle hq1
    · have hdz : a.z < b.z := by
        rcases hablt with h' | ⟨_, h'⟩
        · linarith
        · exact h'
      have hux0 : c.x - b.x = 0 := by
        have h2 : (b.z - a.z) * (c.x - b.x) = 0 := by
          linear_combination (-(c.z - b.z)) * hdx - hcol
        rcases mul_eq_zero.1 h2 with h3 | h3
        · linarith
        · exact h3
      have huz : c.z - b.z < 0 := by
        rcases hcblt with h' | ⟨_, h'⟩
        · linarith
        · linarith
      have key : (b.z - a.z) * cross b c q = (c.z - b.z) * cross a b q := by
        simp only [cross]
        linear_combination (-(q.z - b.z)) * hcol
      have hle : cross a b q ≤ 0 := by
        by_contra hX
        push_neg at hX
        have h1 : 0 ≤ (b.z - a.z) * cross b c q := mul_nonneg (by linarith) hq2
        have h2 : (c.z - b.z) * cross a b q < 0 := mul_neg_of_neg_of_pos huz hX
        linarith [key]
      exact le_antisymm hle hq1
  rcases hbig with hL3 | hU3
  · obtain ⟨x, y, z, t, hEq⟩ := exists_triple_of_len hL3
    have htri : 0 < cross x y z := hconvL x y z (by rw [hEq]; exact triple_infix_head3 t)
    have hxm : x ∈ P := hLmem x (by rw [hEq]; simp)
    have hym : y ∈ P := hLmem y (by rw [hEq]; simp)
    have hzm : z ∈ P := hLmem z (by rw [hEq]; simp)
    have := cross_zero_of_line habne (hzero x hxm) (hzero y hym) (hzero z hzm)
    linarith
  · obtain ⟨x, y, z, t, hEq⟩ := exists_triple_of_len hU3
    have htri : 0 < cross x y z := hconvU x y z (by rw [hEq]; exact triple_infix_head3 t)
    have hxm : x ∈ P := hUmem x (by rw [hEq]; simp)
    have hym : y ∈ P := hUmem y (by rw [hEq]; simp)
    have hzm : z ∈ P := hUmem z (by rw [hEq]; simp)
    have := cross_zero_of_line habne (hzero x hxm) (hzero y hym) (hzero z hzm)
    linarith

/-- The mirrored seam: a suffix pair of the (descending) upper chain glued
to a prefix pair of the lower chain.  Obtained from `seam_strict` by
negating the whole configuration. -/
theorem seam_strict_rev {P L U : List Pt} {a b c : Pt}
    (hLmem : ∀ v ∈ L, v ∈ P) (hUmem : ∀ v ∈ U, v ∈ P)
    (hsupL : ∀ x y, [x, y] <:+: L → ∀ q ∈ P, 0 ≤ cross x y q)
    (hsupU : ∀ x y, [x, y] <:+: U → ∀ q ∈ P, 0 ≤ cross x y q)
    (hLsort : List.Pairwise ptLt L)
    (hUsort : List.Pairwise (fun x y => ptLt y x) U)
    (hconvL : ∀ x y z, [x, y, z] <:+: L → 0 < cross x y z)
    (hconvU : ∀ x y z, [x, y, z] <:+: U → 0 < cross x y z)
    (hbig : 3 ≤ L.length ∨ 3 ≤ U.length)
    (hab : [a, b] <:+ U) (hbc : [b, c] <+: L) :
    0 < cross a b c := by
  have hmain : 0 < cross (negP a) (negP b) (negP c) := by
    refine @seam_strict (P.map negP) (U.map negP) (L.map negP)
      (negP a) (negP b) (negP c) ?_ ?_ ?_ ?_ ?_ ?_ ?_ ?_ ?_ ?_ ?_
    · intro v hv
      obtain ⟨w, hw, rfl⟩ := List.mem_map.1 hv
      exact List.mem_map.2 ⟨w, hUmem w hw, rfl⟩
    · intro v hv
      obtain ⟨w, hw, rfl⟩ := List.mem_map.1 hv
      exact List.mem_map.2 ⟨w, hLmem w hw, rfl⟩
    · intro x y h q hq
      obtain ⟨q0, hq0, rfl⟩ := List.mem_map.1 hq
      have h2 : [negP x, negP y] <:+: U := infix_map_negP h
      have h3 := hsupU (negP x) (negP y) h2 q0 hq0
      rw [show cross x y (negP q0) =
        cross (negP (negP x)) (negP (negP y)) (negP q0) by rw [negP_negP, negP_negP],
        cross_negP]
      exact h3
    · intro x y h q hq
      obtain ⟨q0, hq0, rfl⟩ := List.mem_map.1 hq
      have h2 : [negP x, negP y] <:+: L := infix_map_negP h
      have h3 := hsupL (negP x) (negP y) h2 q0 hq0
      rw [show cross x y (negP q0) =
        cross (negP (negP x)) (negP (negP y)) (negP q0) by rw [negP_negP, negP_negP],
        cross_negP]
      exact h3
    · rw [List.pairwise_map]
      exact hUsort.imp (fun h => ptLt_negP.2 h)
    · rw [List.pairwise_map]
      exact hLsort.imp (fun h => ptLt_negP.2 h)
    · intro x y z h
      have h2 : [negP x, negP y, negP z] <:+: U := infix_map_negP h
      have h3 := hconvU (negP x) (negP y) (negP z) h2
      rw [show cross x y z =
        cross (negP (negP x)) (negP (negP y)) (negP (negP z)) by
          rw [negP_negP, negP_negP, negP_negP], cross_negP]
      exact h3
    · intro x y z h
      have h2 : [negP x, negP y, negP z] <:+: L := infix_map_negP h
      have h3 := hconvL (negP x) (negP y) (negP z) h2
      rw [show cross x y z =
        cross (negP (negP x)) (negP (negP y)) (negP (negP z)) by
          rw [negP_negP, negP_negP, negP_negP], cross_negP]
      exact h3
    · rcases hbig with h | h
      · exact Or.inr (by simpa using h)
      · exact Or.inl (by simpa using h)
    · exact List.IsSuffix.map negP hab
    · exact List.IsPrefix.map negP hbc
  rw [cross_negP] at hmain
  exact hmain

theorem exists_pair_of_len {l : List Pt} (h : 2 ≤ l.length) :
    ∃ x y t, l = x :: y :: t := by
  cases l with
  | nil => exact absurd h (by simp)
  | cons x l1 =>
    cases l1 with
    | nil => exact absurd h (by simp)
    | cons y t => exact ⟨x, y, t, rfl⟩

theorem suffix_pair_of_getLast {l : List Pt} {x m : Pt}
    (hx : l.dropLast.getLast? = some x) (hm : l.getLast? = some m) :
    [x, m] <:+ l := by
  obtain ⟨W, hW⟩ := List.getLast?_eq_some_iff.1 hx
  have hl : l.dropLast ++ [m] = l := List.dropLast_append_getLast? m hm
  exact ⟨W, by rw [← hl, hW]; simp⟩

/-- Assembling the two dropLast-ed chains into the closed hull polygon:
membership, nonemptiness, weak support of every cyclic edge, and strict
turns at every cyclic triple. -/
theorem hull_assembly {P L U : List Pt}
    (hLmem : ∀ v ∈ L, v ∈ P) (hUmem : ∀ v ∈ U, v ∈ P)
    (hsupL : ∀ x y, [x, y] <:+: L → ∀ q ∈ P, 0 ≤ cross x y q)
    (hsupU : ∀ x y, [x, y] <:+: U → ∀ q ∈ P, 0 ≤ cross x y q)
    (hLsort : List.Pairwise ptLt L)
    (hUsort : List.Pairwise (fun x y => ptLt y x) U)
    (hconvL : ∀ x y z, [x, y, z] <:+: L → 0 < cross x y z)
    (hconvU : ∀ x y z, [x, y, z] <:+: U → 0 < cross x y z)
    (hL2 : 2 ≤ L.length) (hU2 : 2 ≤ U.length)
    (hLU : L.getLast? = U.head?) (hUL : U.getLast? = L.head?) :
    (∀ v ∈ L.dropLast ++ U.dropLast, v ∈ P) ∧
    L.dropLast ++ U.dropLast ≠ [] ∧
    (∀ x y, [x, y] <:+: (L.dropLast ++ U.dropLast) ++ (L.dropLast ++ U.dropLast).take 1 →
      ∀ q ∈ P, 0 ≤ cross x y q) ∧
    (3 ≤ (L.dropLast ++ U.dropLast).length →
      ∀ x y z, [x, y, z] <:+: (L.dropLast ++ U.dropLast) ++
        (L.dropLast ++ U.dropLast).take 2 → 0 < cross x y z) := by
  obtain ⟨l0, l1, Lt, rfl⟩ := exists_pair_of_len hL2
  obtain ⟨u0, u1, Ut, rfl⟩ := exists_pair_of_len hU2
  have hLlast : (l0 :: l1 :: Lt).getLast? = some u0 := by rw [hLU]; rfl
  have hUlast : (u0 :: u1 :: Ut).getLast? = some l0 := by rw [hUL]; rfl
  have hI1 : (l0 :: l1 :: Lt).dropLast ++ [u0] = l0 :: l1 :: Lt :=
    List.dropLast_append_getLast? u0 hLlast
  have hI2 : (u0 :: u1 :: Ut).dropLast ++ [l0] = u0 :: u1 :: Ut :=
    List.dropLast_append_getLast? l0 hUlast
  have hLdrop : (l0 :: l1 :: Lt).dropLast = l0 :: (l1 :: Lt).dropLast := rfl
  have htake1 : ((l0 :: l1 :: Lt).dropLast ++ (u0 :: u1 :: Ut).dropLast).take 1 = [l0] := rfl
  have hI3 : ((l0 :: l1 :: Lt).dropLast ++ (u0 :: u1 :: Ut).dropLast) ++
      ((l0 :: l1 :: Lt).dropLast ++ (u0 :: u1 :: Ut).dropLast).take 1 =
      (l0 :: l1 :: Lt).dropLast ++ (u0 :: u1 :: Ut) := by
    rw [htake1, List.append_assoc, hI2]
  have htake2 : ((l0 :: l1 :: Lt).dropLast ++ (u0 :: u1 :: Ut).dropLast).take 2 =
      [l0, l1] := by
    cases Lt with
    | nil =>
      have h' : l1 = u0 := by simpa using hLlast
      rw [h']; rfl
    | cons c Lt' => rfl
  have hI4 : ((l0 :: l1 :: Lt).dropLast ++ (u0 :: u1 :: Ut).dropLast) ++
      ((l0 :: l1 :: Lt).dropLast ++ (u0 :: u1 :: Ut).dropLast).take 2 =
      (l0 :: l1 :: Lt).dropLast ++ ((u0 :: u1 :: Ut) ++ [l1]) := by
    rw [htake2, List.append_assoc]
    congr 1
    rw [show ([l0, l1] : List Pt) = [l0] ++ [l1] from rfl, ← List.append_assoc, hI2]
  refine ⟨?_, ?_, ?_, ?_⟩
  · intro v hv
    rcases List.mem_append.1 hv with h | h
    · exact hLmem v (List.dropLast_subset _ h)
    · exact hUmem v (List.dropLast_subset _ h)
  · rw [hLdrop]; simp
  · intro x y h q hq
    rw [hI3] at h
    rcases pair_infix_append h with h' | h' | ⟨h1, h2⟩
    · exact hsupL x y (h'.trans (List.dropLast_prefix _).isInfix) q hq
    · exact hsupU x y h' q hq
    · have hy : u0 = y := by simpa using h2
      subst hy
      exact hsupL x u0 (suffix_pair_of_getLast h1 hLlast).isInfix q hq
  · intro hlen3 x y z h
    rw [hI4] at h
    have hbig : 3 ≤ (l0 :: l1 :: Lt).length ∨ 3 ≤ (u0 :: u1 :: Ut).length := by
      by_contra hcon
      push_neg at hcon
      obtain ⟨hc1, hc2⟩ := hcon
      rw [List.length_append] at hlen3
      simp [List.length_dropLast] at hlen3 hc1 hc2
      omega
    rcases triple_infix_append h with h' | h' | ⟨h1, h2⟩ | ⟨h1, h2⟩
    · exact hconvL x y z (h'.trans (List.dropLast_prefix _).isInfix)
    · rcases triple_infix_append h' with h'' | h'' | ⟨h3, h4⟩ | ⟨h3, h4⟩
      · exact hconvU x y z h''
      · exact absurd h''.length_le (by simp)
      · have hz : l1 = z := by simpa using h4
        subst hz
        have hy : l0 = y := by
          have h5 := getLast?_of_pair_suffix h3
          rw [hUlast] at h5
          simpa using h5
        subst hy
        exact seam_strict_rev hLmem hUmem hsupL hsupU hLsort hUsort hconvL hconvU
          hbig h3 ⟨Lt, rfl⟩
      · exact absurd h4.length_le (by simp)
    · have hz : u0 = z := by
        rw [List.head?_append_of_ne_nil _ (by simp)] at h2
        simpa using h2
      subst hz
      have h5 := @pair_suffix_snoc x y u0 ((l0 :: l1 :: Lt).dropLast) h1
      rw [hI1] at h5
      exact hconvL x y u0 h5.isInfix
    · obtain ⟨hy, h5⟩ := List.cons_prefix_cons.1 h2
      subst hy
      obtain ⟨hz, _⟩ := List.cons_prefix_cons.1 h5
      subst hz
      have hxs : [x, y] <:+ (l0 :: l1 :: Lt) := suffix_pair_of_getLast h1 hLlast
      exact seam_strict hLmem hUmem hsupL hsupU hLsort hUsort hconvL hconvU
        hbig hxs ⟨Ut, rfl⟩

theorem option_negP_negP (o : Option Pt) : Option.map negP (Option.map negP o) = o := by
  cases o <;> simp [negP_negP]

/-- The chain-order facts for the upper chain, obtained from the lower
chain of the negated reversed input. -/
theorem upper_chain_facts (pts : List Pt) (hpw : List.Pairwise ptLt pts) (hne : pts ≠ []) :
    (chainRev pts.reverse).reverse ≠ [] ∧
    ((chainRev pts.reverse).reverse).head? = pts.getLast? ∧
    ((chainRev pts.reverse).reverse).getLast? = pts.head? ∧
    (∀ v ∈ (chainRev pts.reverse).reverse, v ∈ pts) ∧
    List.Pairwise (fun x y => ptLt y x) ((chainRev pts.reverse).reverse) ∧
    (∀ x y z, [x, y, z] <:+: (chainRev pts.reverse).reverse → 0 < cross x y z) ∧
    (∀ x y, [x, y] <:+: (chainRev pts.reverse).reverse → ∀ q ∈ pts, 0 ≤ cross x y q) := by
  have hQpw := pairwise_ptLt_reverse_map_negP hpw
  have hQne : pts.reverse.map negP ≠ [] := by simpa using hne
  obtain ⟨hne', hhead, hlast, hmem, hsort, hconv, hsup⟩ :=
    chain_facts (pts.reverse.map negP) hQpw hQne
  have hU : (chainRev pts.reverse).reverse =
      ((chainRev (pts.reverse.map negP)).reverse).map negP := by
    have h1 : (pts.reverse.map negP).map negP = pts.reverse := by
      rw [List.map_map, show negP ∘ negP = id from funext negP_negP, List.map_id]
    calc (chainRev pts.reverse).reverse
        = (chainRev ((pts.reverse.map negP).map negP)).reverse := by rw [h1]
      _ = ((chainRev (pts.reverse.map negP)).map negP).reverse := by rw [chainRev_map_negP]
      _ = ((chainRev (pts.reverse.map negP)).reverse).map negP := by rw [← List.map_reverse]
  refine ⟨?_, ?_, ?_, ?_, ?_, ?_, ?_⟩
  · rw [hU]; simpa using hne'
  · rw [hU, List.head?_map, hhead, List.head?_map, List.head?_reverse, option_negP_negP]
  · rw [hU, List.getLast?_map, hlast, List.getLast?_map, List.getLast?_reverse,
      option_negP_negP]
  · intro v hv
    rw [hU] at hv
    obtain ⟨w, hw, rfl⟩ := List.mem_map.1 hv
    have hw2 := hmem w hw
    obtain ⟨u, hu, rfl⟩ := List.mem_map.1 hw2
    rw [negP_negP]
    exact List.mem_reverse.1 hu
  · rw [hU, List.pairwise_map]
    exact hsort.imp (fun h => ptLt_negP.2 h)
  · intro x y z h
    rw [hU] at h
    have h2 := infix_map_negP h
    have h3 := hconv (negP x) (negP y) (negP z) h2
    rw [show cross x y z =
      cross (negP (negP x)) (negP (negP y)) (negP (negP z)) by
        rw [negP_negP, negP_negP, negP_negP], cross_negP]
    exact h3
  · intro x y h q hq
    rw [hU] at h
    have h2 := infix_map_negP h
    have h3 := hsup (negP x) (negP y) h2 (negP q)
      (List.mem_map.2 ⟨q, List.mem_reverse.2 hq, rfl⟩)
    rw [show cross x y q =
      cross (negP (negP x)) (negP (negP y)) (negP (negP q)) by
        rw [negP_negP, negP_negP, negP_negP], cross_negP]
    exact h3

theorem two_le_length_of_head_ne_getLast {l : List Pt} (hne : l ≠ [])
    (h : l.head? ≠ l.getLast?) : 2 ≤ l.length := by
  cases l with
  | nil => exact absurd rfl hne
  | cons a t =>
    cases t with
    | nil => exact absurd (by simp) h
    | cons b t' => rw [List.length_cons, List.length_cons]; omega

set_option maxHeartbeats 1000000 in
/-- Concrete run of convexHull on a square with one interior point. -/
theorem hull_scenario :
    convexHull [⟨0,0⟩, ⟨4,0⟩, ⟨4,3⟩, ⟨0,3⟩, ⟨2,1⟩] = [⟨0,0⟩, ⟨4,0⟩, ⟨4,3⟩, ⟨0,3⟩] := by
  simp only [convexHull]
  norm_num [List.insertionSort, List.orderedInsert, ptLe, chainRev, List.foldl,
    popWhile, cross]

set_option maxHeartbeats 1000000 in
/-- C6: For any input of more than two distinct points, convexHull returns
a nonempty list of input points in convex position: when the hull has at
least three vertices every cyclic triple of the closed polygon is a strict
left turn, and every input point lies weakly to the left of every directed
cyclic edge, i.e. within or on the boundary of the hull polygon.  On the
concrete input with an interior point, the hull is exactly the four outer
corners in order. -/
theorem c6_convexHull_correct (points : List Pt) (h3 : 2 < points.length)
    (hnd : points.Nodup) :
    (∀ v ∈ convexHull points, v ∈ points) ∧
    convexHull points ≠ [] ∧
    (∀ q ∈ points, ∀ x y,
      [x, y] <:+: convexHull points ++ (convexHull points).take 1 → 0 ≤ cross x y q) ∧
    (3 ≤ (convexHull points).length → ∀ x y z,
      [x, y, z] <:+: convexHull points ++ (convexHull points).take 2 → 0 < cross x y z) ∧
    convexHull [⟨0,0⟩, ⟨4,0⟩, ⟨4,3⟩, ⟨0,3⟩, ⟨2,1⟩] = [⟨0,0⟩, ⟨4,0⟩, ⟨4,3⟩, ⟨0,3⟩] := by
  have hperm : List.Perm (List.insertionSort ptLe points) points :=
    List.perm_insertionSort ptLe points
  have hlen' : (List.insertionSort ptLe points).length = points.length := hperm.length_eq
  have hpw : List.Pairwise ptLt (List.insertionSort ptLe points) := by
    have h1 : List.Pairwise ptLe (List.insertionSort ptLe points) :=
      List.sorted_insertionSort ptLe points
    have h2 : List.Pairwise (fun a b : Pt => a ≠ b) (List.insertionSort ptLe points) :=
      hperm.nodup_iff.2 hnd
    exact (h1.and h2).imp (fun h => ptLt_of_ptLe_ne h.1 h.2)
  have hne : List.insertionSort ptLe points ≠ [] := by
    intro h
    rw [h] at hlen'
    simp at hlen'
    omega
  have hguard : ¬ ((List.insertionSort ptLe points).length ≤ 2) := by omega
  have hch : convexHull points =
      (chainRev (List.insertionSort ptLe points)).reverse.dropLast ++
      (chainRev (List.insertionSort ptLe points).reverse).reverse.dropLast := by
    simp only [convexHull]
    rw [if_neg hguard]
  obtain ⟨hLne, hLhead, hLlast, hLmem, hLsort, hLconv, hLsup⟩ :=
    chain_facts (List.insertionSort ptLe points) hpw hne
  obtain ⟨hUne, hUhead, hUlast, hUmem, hUsort, hUconv, hUsup⟩ :=
    upper_chain_facts (List.insertionSort ptLe points) hpw hne
  have hheadne : (List.insertionSort ptLe points).head? ≠
      (List.insertionSort ptLe points).getLast? := by
    obtain ⟨a, b, c, t, hEq⟩ := exists_triple_of_len
      (by omega : 3 ≤ (List.insertionSort ptLe points).length)
    rw [hEq]
    have hpw' : List.Pairwise ptLt (a :: b :: c :: t) := hEq ▸ hpw
    obtain ⟨M, hM⟩ : ∃ M, (b :: c :: t).getLast? = some M :=
      Option.isSome_iff_exists.1 (List.getLast?_isSome.2 (by simp))
    have haM : ptLt a M :=
      (List.pairwise_cons.1 hpw').1 M (List.mem_of_getLast?_eq_some hM)
    rw [List.getLast?_cons_cons, hM]
    simpa using ptLt_ne haM
  have hL2 : 2 ≤ (chainRev (List.insertionSort ptLe points)).reverse.length :=
    two_le_length_of_head_ne_getLast hLne (by rw [hLhead, hLlast]; exact hheadne)
  have hU2 : 2 ≤ (chainRev (List.insertionSort ptLe points).reverse).reverse.length :=
    two_le_length_of_head_ne_getLast hUne (by rw [hUhead, hUlast]; exact hheadne.symm)
  have hasm := hull_assembly
    (fun v hv => hperm.mem_iff.1 (hLmem v hv))
    (fun v hv => hperm.mem_iff.1 (hUmem v hv))
    (fun x y h q hq => hLsup x y h q (hperm.mem_iff.2 hq))
    (fun x y h q hq => hUsup x y h q (hperm.mem_iff.2 hq))
    hLsort hUsort hLconv hUconv hL2 hU2 (hLlast.trans hUhead.symm)
    (hUlast.trans hLhead.symm)
  obtain ⟨hmem', hne', hsup', hconv'⟩ := hasm
  refine ⟨?_, ?_, ?_, ?_, hull_scenario⟩
  · intro v hv
    rw [hch] at hv
    exact hmem' v hv
  · rw [hch]; exact hne'
  · intro q hq x y h
    rw [hch] at h
    exact hsup' x y h q hq
  · intro hlen3 x y z h
    rw [hch] at h
    rw [hch] at hlen3
    exact hconv' hlen3 x y z h

/-- Witness for C6 at the concrete five-point input. -/
theorem c6_witness :
    2 < ([⟨0,0⟩, ⟨4,0⟩, ⟨4,3⟩, ⟨0,3⟩, ⟨2,1⟩] : List Pt).length ∧
    ([⟨0,0⟩, ⟨4,0⟩, ⟨4,3⟩, ⟨0,3⟩, ⟨2,1⟩] : List Pt).Nodup ∧
    convexHull [⟨0,0⟩, ⟨4,0⟩, ⟨4,3⟩, ⟨0,3⟩, ⟨2,1⟩] = [⟨0,0⟩, ⟨4,0⟩, ⟨4,3⟩, ⟨0,3⟩] :=
  ⟨by norm_num, by norm_num [List.nodup_cons, List.mem_cons, Pt.mk.injEq],
    (c6_convexHull_correct [⟨0,0⟩, ⟨4,0⟩, ⟨4,3⟩, ⟨0,3⟩, ⟨2,1⟩]
      (by norm_num) (by norm_num [List.nodup_cons, List.mem_cons, Pt.mk.injEq])).2.2.2.2⟩

end STIMP
